import Mathlib

/-!
The PBF writer's string table (`osmium/io/detail/pbf_stringtable.hpp`).

A shallow embedding of `osmium::io::detail::StringTable`.

* `std::string` is a Lean `String` (the strings of OSM data are UTF-8 text);
  `std::string::operator<` compares byte by byte, which for UTF-8 text is the
  lexicographic comparison of the character codes (`string_less`).
* `uint16_t` values (`count`, `interim_id`, the loop counter `n`) are natural
  numbers reduced modulo `2^16` at every increment or cast.
* `std::map<std::string, string_info>` is an association list kept in
  ascending key order (`map_insert` puts a new key at its sorted place).
* `std::multimap<string_info, std::string>` is the list of its elements in
  iteration order, an iterator is the index of the element it points to, and
  an index past the last element is `end()`.  Insertion with a hint follows
  the red-black tree algorithm of the GNU C++ library, which the doc comment
  of `store_stringtable` names as the reference implementation.
* `assert` is an active check: a failed assertion ends the call with
  `Except.error`, carrying the object state at the moment of the failure.
* Indexing a `std::vector` outside its bounds has no defined result and is
  `none`.
-/

namespace Osmium

/-- Number of values of `uint16_t`, the type of `StringTable::string_id_type`. -/
def UINT16_SIZE : Nat := 65536

/-- The value `std::numeric_limits<string_id_type>::max()`. -/
def STRING_ID_MAX : Nat := 65535

/-- The struct `StringTable::string_info`. -/
structure string_info where
  count : Nat
  interim_id : Nat
deriving DecidableEq

/-- The data members of `class StringTable`. -/
structure StringTable where
  m_strings : List (String × string_info)
  m_id2id_map : List Nat
  m_size : Nat
deriving DecidableEq

/-- The contents of a `std::multimap<string_info, std::string>` in iteration order. -/
abbrev Multimap := List (string_info × String)

/-- State of a default-constructed table: `m_strings {}`, `m_id2id_map {}`, `m_size = 0`. -/
def StringTable.fresh : StringTable := ⟨[], [], 0⟩

/-- Lexicographic comparison of character sequences by character code. -/
def chars_less : List Char → List Char → Bool
  | _, [] => false
  | [], _ :: _ => true
  | a :: as, b :: bs =>
    if a.toNat < b.toNat then true
    else if b.toNat < a.toNat then false
    else chars_less as bs

/-- The order `std::less<std::string>` of the keys of `m_strings`. -/
def string_less (a b : String) : Bool := chars_less a.toList b.toList

/-- Lookup of a key in the `std::map` (`find`). -/
def map_find : List (String × string_info) → String → Option string_info
  | [], _ => none
  | (k, v) :: rest, key => if k = key then some v else map_find rest key

/-- Insertion of a key that is not yet in the `std::map`, at its place in key order. -/
def map_insert : List (String × string_info) → String → string_info →
    List (String × string_info)
  | [], key, v => [(key, v)]
  | (k, v0) :: rest, key, v =>
    if string_less key k then (key, v) :: (k, v0) :: rest
    else (k, v0) :: map_insert rest key v

/-- Assignment to the mapped value of an existing key (a write through the
reference that `operator[]` returned). -/
def map_assign : List (String × string_info) → String → string_info →
    List (String × string_info)
  | [], _, _ => []
  | (k, v0) :: rest, key, v =>
    if k = key then (k, v) :: rest else (k, v0) :: map_assign rest key v

/-- The effect of `m_strings[string]` on the map: a missing key is inserted with a
value-initialised `string_info` (`count = 0`, `interim_id = 0`). -/
def map_index (m : List (String × string_info)) (key : String) :
    List (String × string_info) :=
  match map_find m key with
  | some _ => m
  | none => map_insert m key ⟨0, 0⟩

/-- The method `StringTable::record_string`.  The result is the returned interim id
and the new state, or the state at the failed assertion. -/
def record_string (t : StringTable) (string : String) :
    Except StringTable (Nat × StringTable) :=
  let strings := map_index t.m_strings string
  let info := (map_find strings string).getD ⟨0, 0⟩
  if info.interim_id = 0 then
    let size := t.m_size + 1
    if size < STRING_ID_MAX then
      let info1 : string_info := ⟨info.count, size % UINT16_SIZE⟩
      Except.ok (info1.interim_id,
        ⟨map_assign strings string info1, t.m_id2id_map, size⟩)
    else
      Except.error ⟨strings, t.m_id2id_map, size⟩
  else
    let info1 : string_info := ⟨(info.count + 1) % UINT16_SIZE, info.interim_id⟩
    Except.ok (info1.interim_id,
      ⟨map_assign strings string info1, t.m_id2id_map, t.m_size⟩)

/-- The comparison `operator<(const string_info&, const string_info&)`. -/
def info_less (lhs rhs : string_info) : Bool := decide (lhs.count > rhs.count)

/-- Position found by the descent of `_M_get_insert_equal_pos`: in front of the first
element whose key is greater than `k`. -/
def upper_bound_pos : Multimap → string_info → Nat
  | [], _ => 0
  | e :: es, k => if info_less k e.1 then 0 else upper_bound_pos es k + 1

/-- Position found by the descent of `_M_insert_equal_lower`: in front of the first
element whose key is not less than `k`. -/
def lower_bound_pos : Multimap → string_info → Nat
  | [], _ => 0
  | e :: es, k => if info_less e.1 k then lower_bound_pos es k + 1 else 0

/-- Insertion of `v` in front of position `i`; the result is the new contents and the
iterator to the new element. -/
def insert_at (m : Multimap) (i : Nat) (v : string_info × String) : Multimap × Nat :=
  (m.take i ++ v :: m.drop i, i)

/-- The call `multimap::insert(hint, v)`, after `_M_get_insert_hint_equal_pos`. -/
def multimap_insert_hint (m : Multimap) (hint : Nat) (v : string_info × String) :
    Multimap × Nat :=
  match m[hint]? with
  | none =>
    -- the hint is end()
    match m.getLast? with
    | some last =>
      if !info_less v.1 last.1 then insert_at m m.length v
      else insert_at m (upper_bound_pos m v.1) v
    | none => insert_at m (upper_bound_pos m v.1) v
  | some pos =>
    if !info_less pos.1 v.1 then
      -- first, try before
      match hint with
      | 0 => insert_at m 0 v
      | b + 1 =>
        match m[b]? with
        | some before =>
          if !info_less v.1 before.1 then insert_at m (b + 1) v
          else insert_at m (upper_bound_pos m v.1) v
        | none => insert_at m (upper_bound_pos m v.1) v
    else
      -- then try after
      match m[hint + 1]? with
      | none => insert_at m m.length v
      | some after =>
        if !info_less after.1 v.1 then insert_at m (hint + 1) v
        else insert_at m (lower_bound_pos m v.1) v

/-- The call `std::transform(first, last, std::inserter(m, iter), flip)`: every source
pair is flipped and inserted with the hint `iter`, which then moves to the position
after the new element. -/
def transform_insert : List (String × string_info) → Multimap → Nat → Multimap
  | [], m, _ => m
  | p :: rest, m, iter =>
    let r := multimap_insert_hint m iter (p.2, p.1)
    transform_insert rest r.1 (r.2 + 1)

/-- The call `std::vector::resize(n)`: new elements are value-initialised. -/
def vector_resize (v : List Nat) (n : Nat) : List Nat :=
  v.take n ++ List.replicate (n - v.length) 0

/-- The range-for loop of `store_stringtable` over `sortedbycount`. -/
def store_loop : Multimap → List String → List Nat → Nat → Option (List String × List Nat)
  | [], st, id2id, _ => some (st, id2id)
  | mapping :: rest, st, id2id, n =>
    let n1 := (n + 1) % UINT16_SIZE
    if mapping.1.interim_id < id2id.length then
      store_loop rest (st ++ [mapping.2]) (id2id.set mapping.1.interim_id n1) n1
    else none

/-- The multimap `sortedbycount` that `store_stringtable` builds from `m_strings`. -/
def sortedbycount (t : StringTable) : Multimap := transform_insert t.m_strings [] 0

/-- The method `StringTable::store_stringtable`; `st` is the list of strings of the
protobuf string table and `add_s` appends to it. -/
def store_stringtable (t : StringTable) (st : List String) :
    Option (StringTable × List String) :=
  match store_loop (sortedbycount t) (st ++ [""])
      (vector_resize t.m_id2id_map (t.m_size + 1)) 0 with
  | some (st1, id2id) => some (⟨t.m_strings, id2id, t.m_size⟩, st1)
  | none => none

/-- The method `StringTable::map_string_id`. -/
def map_string_id (t : StringTable) (interim_id : Nat) : Option Nat :=
  t.m_id2id_map[interim_id]?

/-- The method `StringTable::clear`. -/
def clear (_t : StringTable) : StringTable := ⟨[], [], 0⟩

/-- A sequence of `record_string` calls: the ids returned, in call order, and the
final state; the first failed assertion ends the sequence. -/
def record_strings : StringTable → List String → Except StringTable (List Nat × StringTable)
  | t, [] => Except.ok ([], t)
  | t, s :: rest =>
    match record_string t s with
    | Except.ok (id, t1) =>
      match record_strings t1 rest with
      | Except.ok (ids, t2) => Except.ok (id :: ids, t2)
      | Except.error e => Except.error e
    | Except.error e => Except.error e

/-- The distinct strings of a call sequence in the order of their first occurrence. -/
def first_seen (l : List String) : List String :=
  l.foldl (fun acc s => if s ∈ acc then acc else acc ++ [s]) []


/-- The state `t` is what the call sequence `l` leaves behind on a new table: the keys
of `m_strings` are the distinct strings of `l`, `m_size` counts them, and every string
has its reuse count modulo `2^16` and its first-seen rank as interim id. -/
structure Recorded (t : StringTable) (l : List String) : Prop where
  keys_perm : (t.m_strings.map Prod.fst).Perm (first_seen l)
  size_eq : t.m_size = (first_seen l).length
  size_lt : t.m_size < STRING_ID_MAX
  find : ∀ s ∈ l, map_find t.m_strings s =
    some ⟨(l.count s - 1) % UINT16_SIZE, (first_seen l).indexOf s + 1⟩


/-- The multimap invariant: no element is ordered before an element in front of it,
which for `operator<` of `string_info` says that the counts never increase. -/
def CountSorted (m : Multimap) : Prop :=
  m.Pairwise (fun a b => b.1.count ≤ a.1.count)


/-- The states a client can reach, with the history of the current block: `l` lists the
strings passed to the successful `record_string` calls since construction or the last
`clear`, and `ids` the interim ids these calls returned. -/
inductive Reached : StringTable → List String → List Nat → Prop
  | fresh : Reached StringTable.fresh [] []
  | record {t t1 : StringTable} {l : List String} {ids : List Nat} {s : String} {id : Nat} :
      Reached t l ids → record_string t s = Except.ok (id, t1) →
      Reached t1 (l ++ [s]) (ids ++ [id])
  | store {t t1 : StringTable} {l : List String} {ids : List Nat} {st out : List String} :
      Reached t l ids → store_stringtable t st = some (t1, out) → Reached t1 l ids
  | clear {t : StringTable} {l : List String} {ids : List Nat} :
      Reached t l ids → Reached (clear t) [] []

/-- The `n` distinct strings "", "a", "aa", and so on, as input of a block with many
strings. -/
def many_strings (n : Nat) : List String :=
  (List.range n).map (fun i => String.mk (List.replicate i 'a'))

/-- The `std::map` invariant: the keys are in strictly ascending order. -/
def KeysSorted (m : List (String × string_info)) : Prop :=
  (m.map Prod.fst).Pairwise (fun a b => string_less a b = true)

/-- A map entry without its interim id: the key and the count are kept. -/
def forget_id (p : String × string_info) : String × string_info := (p.1, ⟨p.2.count, 0⟩)

/-- A multimap element without its interim id: the count and the string are kept. -/
def forget_id_flipped (e : string_info × String) : string_info × String :=
  (⟨e.1.count, 0⟩, e.2)

/-- The representation invariant of `StringTable`: `m_size` is the number of entries of
`m_strings`, no entry has the interim id 0, and no two entries have the same interim
id. -/
def RepInv (t : StringTable) : Prop :=
  t.m_size = t.m_strings.length ∧
    (∀ e ∈ t.m_strings, e.2.interim_id ≠ 0) ∧
    (t.m_strings.map (fun e => e.2.interim_id)).Nodup

/-! ## The map model and the history of a block -/

theorem first_seen_snoc (l : List String) (s : String) :
    first_seen (l ++ [s]) = if s ∈ first_seen l then first_seen l else first_seen l ++ [s] := by
  simp [first_seen, List.foldl_append]

theorem mem_first_seen (l : List String) (s : String) : s ∈ first_seen l ↔ s ∈ l := by
  induction l using List.reverseRecOn with
  | nil => simp [first_seen]
  | append_singleton l a ih =>
    rw [first_seen_snoc]
    by_cases h : a ∈ first_seen l
    · rw [if_pos h, List.mem_append, List.mem_singleton, ih]
      constructor
      · intro h1; exact Or.inl h1
      · rintro (h1 | h1)
        · exact h1
        · subst h1; exact ih.mp h
    · rw [if_neg h, List.mem_append, List.mem_append, ih]

theorem nodup_first_seen (l : List String) : (first_seen l).Nodup := by
  induction l using List.reverseRecOn with
  | nil => simp [first_seen]
  | append_singleton l a ih =>
    rw [first_seen_snoc]
    by_cases h : a ∈ first_seen l
    · rw [if_pos h]; exact ih
    · rw [if_neg h]
      refine List.Nodup.append ih (List.nodup_singleton a) ?_
      intro x hx hx1
      rw [List.mem_singleton] at hx1
      subst hx1
      exact h hx

theorem map_find_eq_none_iff (m : List (String × string_info)) (key : String) :
    map_find m key = none ↔ key ∉ m.map Prod.fst := by
  induction m with
  | nil => simp [map_find]
  | cons e rest ih =>
    obtain ⟨k, v⟩ := e
    by_cases h : k = key
    · simp [map_find, h]
    · simp only [map_find, if_neg h, ih, List.map_cons, List.mem_cons, not_or]
      constructor
      · intro h1; exact ⟨fun h2 => h h2.symm, h1⟩
      · intro h1; exact h1.2

theorem map_insert_keys_perm (m : List (String × string_info)) (key : String) (v : string_info) :
    ((map_insert m key v).map Prod.fst).Perm (key :: m.map Prod.fst) := by
  induction m with
  | nil => simp [map_insert]
  | cons e rest ih =>
    obtain ⟨k, v0⟩ := e
    by_cases h : string_less key k = true
    · simp [map_insert, h]
    · simp only [map_insert, h, Bool.false_eq_true, if_false, List.map_cons]
      exact (List.Perm.cons k ih).trans (List.Perm.swap key k _)

theorem map_find_insert (m : List (String × string_info)) (key : String) (v : string_info)
    (habs : map_find m key = none) (key1 : String) :
    map_find (map_insert m key v) key1 = if key = key1 then some v else map_find m key1 := by
  induction m with
  | nil => simp [map_insert, map_find]
  | cons e rest ih =>
    obtain ⟨k, v0⟩ := e
    have hk : k ≠ key := by
      intro h; simp [map_find, h] at habs
    have hrest : map_find rest key = none := by
      simpa [map_find, hk] using habs
    by_cases h : string_less key k = true
    · simp [map_insert, h, map_find]
    · simp only [map_insert, h, Bool.false_eq_true, if_false, map_find, ih hrest]
      by_cases h1 : k = key1
      · have : key ≠ key1 := fun h2 => hk (h1.trans h2.symm)
        simp [h1, this]
      · simp [h1]

theorem map_assign_keys (m : List (String × string_info)) (key : String) (v : string_info) :
    (map_assign m key v).map Prod.fst = m.map Prod.fst := by
  induction m with
  | nil => simp [map_assign]
  | cons e rest ih =>
    obtain ⟨k, v0⟩ := e
    by_cases h : k = key
    · simp [map_assign, h]
    · simp [map_assign, h, ih]

theorem map_find_assign (m : List (String × string_info)) (key : String) (v : string_info)
    (key1 : String) :
    map_find (map_assign m key v) key1 =
      if key = key1 then (map_find m key).map (fun _ => v) else map_find m key1 := by
  induction m with
  | nil => simp [map_assign, map_find]
  | cons e rest ih =>
    obtain ⟨k, v0⟩ := e
    by_cases h : k = key
    · subst h
      by_cases h1 : k = key1
      · simp [map_assign, map_find, h1]
      · simp [map_assign, map_find, h1]
    · by_cases h1 : k = key1
      · have h2 : key ≠ key1 := fun h2 => h (h1.trans h2.symm)
        simp only [map_assign, if_neg h, map_find, if_pos h1, if_neg h2]
      · simp only [map_assign, if_neg h, map_find, if_neg h1, ih]

theorem record_string_new (t : StringTable) (s : String)
    (habs : map_find t.m_strings s = none) (hsize : t.m_size + 1 < STRING_ID_MAX) :
    record_string t s = Except.ok (t.m_size + 1,
      ⟨map_assign (map_insert t.m_strings s ⟨0, 0⟩) s ⟨0, t.m_size + 1⟩,
        t.m_id2id_map, t.m_size + 1⟩) := by
  have hmod : (t.m_size + 1) % UINT16_SIZE = t.m_size + 1 := by
    apply Nat.mod_eq_of_lt
    simp only [STRING_ID_MAX, UINT16_SIZE] at *
    omega
  simp only [record_string, map_index, habs, map_find_insert _ _ _ habs, if_true,
    Option.getD_some, hsize, hmod]

theorem record_string_full (t : StringTable) (s : String)
    (habs : map_find t.m_strings s = none) (hsize : ¬ t.m_size + 1 < STRING_ID_MAX) :
    record_string t s = Except.error
      ⟨map_insert t.m_strings s ⟨0, 0⟩, t.m_id2id_map, t.m_size + 1⟩ := by
  simp only [record_string, map_index, habs, map_find_insert _ _ _ habs, if_true,
    Option.getD_some, hsize, if_false]

theorem record_string_seen (t : StringTable) (s : String) (info : string_info)
    (hfind : map_find t.m_strings s = some info) (hid : info.interim_id ≠ 0) :
    record_string t s = Except.ok (info.interim_id,
      ⟨map_assign t.m_strings s ⟨(info.count + 1) % UINT16_SIZE, info.interim_id⟩,
        t.m_id2id_map, t.m_size⟩) := by
  simp only [record_string, map_index, hfind, Option.getD_some, hid, if_false]

theorem recorded_fresh : Recorded StringTable.fresh [] := by
  refine ⟨?_, ?_, ?_, ?_⟩
  · simp [StringTable.fresh, first_seen]
  · simp [StringTable.fresh, first_seen]
  · simp [StringTable.fresh, STRING_ID_MAX]
  · intro s hs; simp at hs

theorem recorded_absent {t : StringTable} {l : List String} (h : Recorded t l)
    {s : String} (hs : s ∉ l) : map_find t.m_strings s = none := by
  rw [map_find_eq_none_iff]
  intro hmem
  exact hs ((mem_first_seen l s).mp (h.keys_perm.mem_iff.mp hmem))

theorem recorded_step_seen {t : StringTable} {l : List String} (h : Recorded t l)
    {s : String} (hs : s ∈ l) :
    Recorded ⟨map_assign t.m_strings s
        ⟨((l.count s - 1) % UINT16_SIZE + 1) % UINT16_SIZE, (first_seen l).indexOf s + 1⟩,
      t.m_id2id_map, t.m_size⟩ (l ++ [s]) := by
  have hfs : first_seen (l ++ [s]) = first_seen l := by
    rw [first_seen_snoc, if_pos ((mem_first_seen l s).mpr hs)]
  refine ⟨?_, ?_, ?_, ?_⟩
  · simp only [map_assign_keys, hfs]; exact h.keys_perm
  · simp only [hfs]; exact h.size_eq
  · exact h.size_lt
  · intro s1 hs1
    simp only [map_find_assign, hfs]
    by_cases h1 : s = s1
    · subst h1
      rw [if_pos rfl, h.find s hs]
      have hc : 0 < l.count s := List.count_pos_iff.mpr hs
      have : ((l.count s - 1) % UINT16_SIZE + 1) % UINT16_SIZE
          = ((l ++ [s]).count s - 1) % UINT16_SIZE := by
        rw [List.count_append, List.count_singleton_self, Nat.add_sub_cancel]
        conv_rhs => rw [show l.count s = (l.count s - 1) + 1 from by omega]
        rw [Nat.add_mod ((l.count s - 1)) 1, Nat.add_mod ((l.count s - 1) % UINT16_SIZE) 1]
        simp
      simp [this]
    · rw [if_neg h1]
      have hs1l : s1 ∈ l := by
        rcases List.mem_append.mp hs1 with h2 | h2
        · exact h2
        · exact absurd (List.mem_singleton.mp h2).symm h1
      rw [h.find s1 hs1l]
      have : (l ++ [s]).count s1 = l.count s1 := by
        rw [List.count_append, List.count_singleton]
        simp [h1]
      rw [this]

theorem recorded_step_new {t : StringTable} {l : List String} (h : Recorded t l)
    {s : String} (hs : s ∉ l) (hsize : t.m_size + 1 < STRING_ID_MAX) :
    Recorded ⟨map_assign (map_insert t.m_strings s ⟨0, 0⟩) s ⟨0, t.m_size + 1⟩,
      t.m_id2id_map, t.m_size + 1⟩ (l ++ [s]) := by
  have hnot : s ∉ first_seen l := fun hm => hs ((mem_first_seen l s).mp hm)
  have hfs : first_seen (l ++ [s]) = first_seen l ++ [s] := by
    rw [first_seen_snoc, if_neg hnot]
  have habs := recorded_absent h hs
  refine ⟨?_, ?_, ?_, ?_⟩
  · simp only [map_assign_keys, hfs]
    refine (map_insert_keys_perm _ _ _).trans ?_
    refine (List.Perm.cons s h.keys_perm).trans ?_
    exact (List.perm_append_singleton s (first_seen l)).symm
  · simp only [hfs, List.length_append, List.length_singleton, h.size_eq]
  · exact hsize
  · intro s1 hs1
    simp only [map_find_assign, map_find_insert _ _ _ habs, hfs]
    by_cases h1 : s = s1
    · subst h1
      simp only [if_true, Option.map_some']
      have hc : l.count s = 0 := List.count_eq_zero.mpr hs
      rw [List.count_append, List.count_singleton_self, hc,
        List.indexOf_append_of_not_mem hnot, List.indexOf_cons_self, h.size_eq]
      simp
    · rw [if_neg h1, if_neg h1]
      have hs1l : s1 ∈ l := by
        rcases List.mem_append.mp hs1 with h2 | h2
        · exact h2
        · exact absurd (List.mem_singleton.mp h2).symm h1
      rw [h.find s1 hs1l, List.indexOf_append_of_mem ((mem_first_seen l s1).mpr hs1l)]
      have : (l ++ [s]).count s1 = l.count s1 := by
        rw [List.count_append, List.count_singleton]
        simp [h1]
      rw [this]

/-- One successful `record_string` call extends the recorded history by the string, and
returns the first-seen rank of the string. -/
theorem recorded_step {t : StringTable} {l : List String} (h : Recorded t l)
    {s : String} {id : Nat} {t1 : StringTable}
    (hr : record_string t s = Except.ok (id, t1)) :
    Recorded t1 (l ++ [s]) ∧ id = (first_seen (l ++ [s])).indexOf s + 1 ∧
      t1.m_id2id_map = t.m_id2id_map := by
  by_cases hs : s ∈ l
  · have hf := h.find s hs
    rw [record_string_seen t s _ hf (by simp)] at hr
    injection hr with hr
    injection hr with hid ht
    subst hid; subst ht
    refine ⟨recorded_step_seen h hs, ?_, rfl⟩
    rw [first_seen_snoc, if_pos ((mem_first_seen l s).mpr hs)]
  · have habs := recorded_absent h hs
    by_cases hsize : t.m_size + 1 < STRING_ID_MAX
    · rw [record_string_new t s habs hsize] at hr
      injection hr with hr
      injection hr with hid ht
      subst hid; subst ht
      refine ⟨recorded_step_new h hs hsize, ?_, rfl⟩
      have hnot : s ∉ first_seen l := fun hm => hs ((mem_first_seen l s).mp hm)
      rw [first_seen_snoc, if_neg hnot, List.indexOf_append_of_not_mem hnot,
        List.indexOf_cons_self, h.size_eq]
    · rw [record_string_full t s habs hsize] at hr
      cases hr

theorem first_seen_append (l r : List String) :
    ∃ ext, first_seen (l ++ r) = first_seen l ++ ext := by
  induction r using List.reverseRecOn with
  | nil => exact ⟨[], by simp⟩
  | append_singleton r a ih =>
    obtain ⟨ext, hext⟩ := ih
    rw [← List.append_assoc, first_seen_snoc]
    by_cases h : a ∈ first_seen (l ++ r)
    · rw [if_pos h]; exact ⟨ext, hext⟩
    · rw [if_neg h, hext]; exact ⟨ext ++ [a], by simp⟩

theorem indexOf_first_seen_append (l r : List String) (s : String) (hs : s ∈ l) :
    (first_seen (l ++ r)).indexOf s = (first_seen l).indexOf s := by
  obtain ⟨ext, hext⟩ := first_seen_append l r
  rw [hext, List.indexOf_append_of_mem ((mem_first_seen l s).mpr hs)]

/-- A successful sequence of `record_string` calls extends the recorded history by the
whole sequence and returns the first-seen ranks of its strings. -/
theorem recorded_run (r : List String) : ∀ (t : StringTable) (l : List String)
    (ids : List Nat) (t1 : StringTable), Recorded t l →
    record_strings t r = Except.ok (ids, t1) →
    Recorded t1 (l ++ r) ∧ ids = r.map (fun s => (first_seen (l ++ r)).indexOf s + 1) ∧
      t1.m_id2id_map = t.m_id2id_map := by
  induction r with
  | nil =>
    intro t l ids t1 h hr
    simp only [record_strings] at hr
    injection hr with hr
    injection hr with hid ht
    subst hid; subst ht
    simpa using h
  | cons s r ih =>
    intro t l ids t1 h hr
    simp only [record_strings] at hr
    cases h1 : record_string t s with
    | error e => rw [h1] at hr; cases hr
    | ok res =>
      obtain ⟨id, t2⟩ := res
      rw [h1] at hr
      simp only at hr
      cases h2 : record_strings t2 r with
      | error e => rw [h2] at hr; cases hr
      | ok res2 =>
        obtain ⟨ids2, t3⟩ := res2
        rw [h2] at hr
        simp only at hr
        injection hr with hr
        injection hr with hid ht
        subst hid; subst ht
        obtain ⟨hrec, hid, hmap⟩ := recorded_step h h1
        obtain ⟨hrec2, hids2, hmap2⟩ := ih t2 (l ++ [s]) ids2 t3 hrec h2
        have happ : l ++ [s] ++ r = l ++ s :: r := by simp
        rw [happ] at hrec2 hids2
        refine ⟨hrec2, ?_, hmap2.trans hmap⟩
        rw [List.map_cons, hids2, hid, ← happ,
          indexOf_first_seen_append (l ++ [s]) r s (by simp)]

theorem recorded_of_run {l : List String} {ids : List Nat} {t : StringTable}
    (hr : record_strings StringTable.fresh l = Except.ok (ids, t)) :
    Recorded t l ∧ ids = l.map (fun s => (first_seen l).indexOf s + 1) ∧
      t.m_id2id_map = [] := by
  have := recorded_run l StringTable.fresh [] ids t recorded_fresh hr
  simpa [StringTable.fresh] using this

/-! ## The multimap and `store_stringtable` -/

theorem insert_at_perm (m : Multimap) (i : Nat) (v : string_info × String) :
    (insert_at m i v).1.Perm (v :: m) := by
  simp only [insert_at]
  refine List.perm_middle.trans ?_
  rw [List.take_append_drop]

theorem multimap_insert_hint_eq (m : Multimap) (hint : Nat) (v : string_info × String) :
    ∃ i, multimap_insert_hint m hint v = insert_at m i v := by
  unfold multimap_insert_hint
  split
  · split
    · split
      · exact ⟨_, rfl⟩
      · exact ⟨_, rfl⟩
    · exact ⟨_, rfl⟩
  · split
    · split
      · exact ⟨_, rfl⟩
      · split
        · split
          · exact ⟨_, rfl⟩
          · exact ⟨_, rfl⟩
        · exact ⟨_, rfl⟩
    · split
      · exact ⟨_, rfl⟩
      · split
        · exact ⟨_, rfl⟩
        · exact ⟨_, rfl⟩

theorem multimap_insert_hint_perm (m : Multimap) (hint : Nat) (v : string_info × String) :
    (multimap_insert_hint m hint v).1.Perm (v :: m) := by
  obtain ⟨i, hi⟩ := multimap_insert_hint_eq m hint v
  rw [hi]
  exact insert_at_perm m i v

theorem transform_insert_perm (src : List (String × string_info)) :
    ∀ (m : Multimap) (iter : Nat),
      (transform_insert src m iter).Perm (src.map (fun p => (p.2, p.1)) ++ m) := by
  induction src with
  | nil => intro m iter; simp [transform_insert]
  | cons p rest ih =>
    intro m iter
    simp only [transform_insert, List.map_cons, List.cons_append]
    refine (ih _ _).trans ?_
    refine (List.Perm.append_left _ (multimap_insert_hint_perm m iter (p.2, p.1))).trans ?_
    exact List.perm_middle

theorem sortedbycount_perm (t : StringTable) :
    (sortedbycount t).Perm (t.m_strings.map (fun p => (p.2, p.1))) := by
  have := transform_insert_perm t.m_strings [] 0
  simpa [sortedbycount] using this

theorem countSorted_getElem {m : Multimap} (hm : CountSorted m) {i j : Nat}
    {a b : string_info × String} (hij : i ≤ j) (ha : m[i]? = some a) (hb : m[j]? = some b) :
    b.1.count ≤ a.1.count := by
  rcases Nat.eq_or_lt_of_le hij with h | h
  · subst h
    rw [ha] at hb
    injection hb with hb
    rw [hb]
  · obtain ⟨hi, hai⟩ := List.getElem?_eq_some.mp ha
    obtain ⟨hj, hbj⟩ := List.getElem?_eq_some.mp hb
    have := (List.pairwise_iff_getElem.mp hm) i j hi hj h
    rw [hai, hbj] at this
    exact this

theorem insert_at_sorted {m : Multimap} (hm : CountSorted m) (i : Nat)
    (v : string_info × String)
    (hbefore : ∀ j e, j < i → m[j]? = some e → v.1.count ≤ e.1.count)
    (hafter : ∀ j e, i ≤ j → m[j]? = some e → e.1.count ≤ v.1.count) :
    CountSorted (insert_at m i v).1 := by
  have hsplit : m = m.take i ++ m.drop i := (List.take_append_drop i m).symm
  have hm1 : CountSorted (m.take i ++ m.drop i) := by rw [← hsplit]; exact hm
  simp only [CountSorted, List.pairwise_append] at hm1
  obtain ⟨h1, h2, h3⟩ := hm1
  simp only [CountSorted, insert_at, List.pairwise_append, List.pairwise_cons,
    List.mem_cons]
  refine ⟨h1, ⟨?_, h2⟩, ?_⟩
  · intro e he
    obtain ⟨j, hj⟩ := List.getElem?_of_mem he
    rw [List.getElem?_drop] at hj
    exact hafter (i + j) e (Nat.le_add_right i j) hj
  · intro a ha b hb
    rcases hb with hb | hb
    · subst hb
      obtain ⟨j, hj⟩ := List.getElem?_of_mem ha
      rw [List.getElem?_take] at hj
      split at hj
      · rename_i hlt; exact hbefore j a hlt hj
      · cases hj
    · exact h3 a ha b hb

theorem upper_bound_spec {m : Multimap} (hm : CountSorted m) (k : string_info) :
    (∀ j e, j < upper_bound_pos m k → m[j]? = some e → k.count ≤ e.1.count) ∧
    (∀ j e, upper_bound_pos m k ≤ j → m[j]? = some e → e.1.count ≤ k.count) := by
  induction m with
  | nil =>
    refine ⟨?_, ?_⟩ <;> intro j e _ he <;> simp at he
  | cons a rest ih =>
    have hrest : CountSorted rest := (List.pairwise_cons.mp hm).2
    obtain ⟨ih1, ih2⟩ := ih hrest
    by_cases hc : info_less k a.1 = true
    · simp only [upper_bound_pos, hc, if_true]
      refine ⟨?_, ?_⟩
      · intro j e hj _; omega
      · intro j e _ he
        have h0 : (a :: rest)[0]? = some a := by simp
        have := countSorted_getElem hm (Nat.zero_le j) h0 he
        simp only [info_less, decide_eq_true_eq] at hc
        omega
    · simp only [upper_bound_pos, hc, Bool.false_eq_true, if_false]
      simp only [info_less, decide_eq_true_eq] at hc
      refine ⟨?_, ?_⟩
      · intro j e hj he
        cases j with
        | zero =>
          simp only [List.getElem?_cons_zero, Option.some.injEq] at he
          subst he; omega
        | succ j =>
          rw [List.getElem?_cons_succ] at he
          exact ih1 j e (by omega) he
      · intro j e hj he
        cases j with
        | zero => omega
        | succ j =>
          rw [List.getElem?_cons_succ] at he
          exact ih2 j e (by omega) he

theorem lower_bound_spec {m : Multimap} (hm : CountSorted m) (k : string_info) :
    (∀ j e, j < lower_bound_pos m k → m[j]? = some e → k.count ≤ e.1.count) ∧
    (∀ j e, lower_bound_pos m k ≤ j → m[j]? = some e → e.1.count ≤ k.count) := by
  induction m with
  | nil =>
    refine ⟨?_, ?_⟩ <;> intro j e _ he <;> simp at he
  | cons a rest ih =>
    have hrest : CountSorted rest := (List.pairwise_cons.mp hm).2
    obtain ⟨ih1, ih2⟩ := ih hrest
    by_cases hc : info_less a.1 k = true
    · simp only [lower_bound_pos, hc, if_true]
      simp only [info_less, decide_eq_true_eq] at hc
      refine ⟨?_, ?_⟩
      · intro j e hj he
        cases j with
        | zero =>
          simp only [List.getElem?_cons_zero, Option.some.injEq] at he
          subst he; omega
        | succ j =>
          rw [List.getElem?_cons_succ] at he
          exact ih1 j e (by omega) he
      · intro j e hj he
        cases j with
        | zero => omega
        | succ j =>
          rw [List.getElem?_cons_succ] at he
          exact ih2 j e (by omega) he
    · simp only [lower_bound_pos, hc, Bool.false_eq_true, if_false]
      simp only [info_less, decide_eq_true_eq] at hc
      refine ⟨?_, ?_⟩
      · intro j e hj _; omega
      · intro j e _ he
        have h0 : (a :: rest)[0]? = some a := by simp
        have := countSorted_getElem hm (Nat.zero_le j) h0 he
        omega

theorem multimap_insert_hint_sorted {m : Multimap} (hm : CountSorted m) (hint : Nat)
    (v : string_info × String) : CountSorted (multimap_insert_hint m hint v).1 := by
  have hub := upper_bound_spec hm v.1
  have hU : CountSorted (insert_at m (upper_bound_pos m v.1) v).1 :=
    insert_at_sorted hm _ v hub.1 hub.2
  have hlb := lower_bound_spec hm v.1
  have hL : CountSorted (insert_at m (lower_bound_pos m v.1) v).1 :=
    insert_at_sorted hm _ v hlb.1 hlb.2
  have hend : ∀ last, m[m.length - 1]? = some last → v.1.count ≤ last.1.count →
      CountSorted (insert_at m m.length v).1 := by
    intro last hlast hle
    apply insert_at_sorted hm
    · intro j e hj he
      have := countSorted_getElem hm (show j ≤ m.length - 1 by omega) he hlast
      omega
    · intro j e hj he
      rw [List.getElem?_eq_none hj] at he
      cases he
  have hmid : ∀ i a b, m[i]? = some a → m[i + 1]? = some b →
      v.1.count ≤ a.1.count → b.1.count ≤ v.1.count →
      CountSorted (insert_at m (i + 1) v).1 := by
    intro i a b ha hb hav hbv
    apply insert_at_sorted hm
    · intro j e hj he
      have := countSorted_getElem hm (show j ≤ i by omega) he ha
      omega
    · intro j e hj he
      have := countSorted_getElem hm hj hb he
      omega
  unfold multimap_insert_hint
  cases hpos : m[hint]? with
  | none =>
    simp only
    cases hlast : m.getLast? with
    | none => exact hU
    | some last =>
      simp only
      by_cases hc : info_less v.1 last.1 = true
      · simp only [hc, Bool.not_true, Bool.false_eq_true, if_false]; exact hU
      · simp only [hc, Bool.not_false, if_true]
        simp only [info_less, decide_eq_true_eq] at hc
        rw [List.getLast?_eq_getElem?] at hlast
        exact hend last hlast (by omega)
  | some pos =>
    simp only
    by_cases hc : info_less pos.1 v.1 = true
    · simp only [hc, Bool.not_true, Bool.false_eq_true, if_false]
      simp only [info_less, decide_eq_true_eq] at hc
      cases hafter : m[hint + 1]? with
      | none =>
        simp only
        have hlen : hint = m.length - 1 := by
          have h1 := List.getElem?_eq_none_iff.mp hafter
          obtain ⟨h2, _⟩ := List.getElem?_eq_some.mp hpos
          omega
        rw [hlen] at hpos
        exact hend pos hpos (by omega)
      | some after =>
        simp only
        by_cases hc2 : info_less after.1 v.1 = true
        · simp only [hc2, Bool.not_true, Bool.false_eq_true, if_false]; exact hL
        · simp only [hc2, Bool.not_false, if_true]
          simp only [info_less, decide_eq_true_eq] at hc2
          exact hmid hint pos after hpos hafter (by omega) (by omega)
    · simp only [hc, Bool.not_false, if_true]
      simp only [info_less, decide_eq_true_eq] at hc
      cases hint with
      | zero =>
        simp only
        apply insert_at_sorted hm
        · intro j e hj _; omega
        · intro j e hj he
          have := countSorted_getElem hm hj hpos he
          omega
      | succ b =>
        simp only
        cases hbefore : m[b]? with
        | none => exact hU
        | some before =>
          simp only
          by_cases hc2 : info_less v.1 before.1 = true
          · simp only [hc2, Bool.not_true, Bool.false_eq_true, if_false]; exact hU
          · simp only [hc2, Bool.not_false, if_true]
            simp only [info_less, decide_eq_true_eq] at hc2
            exact hmid b before pos hbefore hpos (by omega) (by omega)

theorem transform_insert_sorted (src : List (String × string_info)) :
    ∀ (m : Multimap) (iter : Nat), CountSorted m →
      CountSorted (transform_insert src m iter) := by
  induction src with
  | nil => intro m iter hm; simpa [transform_insert] using hm
  | cons p rest ih =>
    intro m iter hm
    simp only [transform_insert]
    exact ih _ _ (multimap_insert_hint_sorted hm iter (p.2, p.1))

theorem sortedbycount_sorted (t : StringTable) : CountSorted (sortedbycount t) :=
  transform_insert_sorted t.m_strings [] 0 List.Pairwise.nil

theorem store_loop_spec (L : Multimap) : ∀ (st : List String) (id2id : List Nat) (n : Nat),
    (L.map (fun e => e.1.interim_id)).Nodup →
    (∀ e ∈ L, e.1.interim_id < id2id.length) →
    n + L.length < UINT16_SIZE →
    ∃ id2id1, store_loop L st id2id n = some (st ++ L.map Prod.snd, id2id1) ∧
      id2id1.length = id2id.length ∧
      (∀ i e, L[i]? = some e → id2id1[e.1.interim_id]? = some (n + i + 1)) ∧
      (∀ j, j ∉ L.map (fun e => e.1.interim_id) → id2id1[j]? = id2id[j]?) := by
  induction L with
  | nil =>
    intro st id2id n _ _ _
    exact ⟨id2id, by simp [store_loop], rfl, by simp, by simp⟩
  | cons a rest ih =>
    intro st id2id n hnd hlt hn
    rw [List.map_cons, List.nodup_cons] at hnd
    have ha : a.1.interim_id < id2id.length := hlt a (List.mem_cons_self a rest)
    have hmod : (n + 1) % UINT16_SIZE = n + 1 := by
      apply Nat.mod_eq_of_lt
      simp only [List.length_cons] at hn
      omega
    obtain ⟨id2id1, h1, h2, h3, h4⟩ := ih (st ++ [a.2]) (id2id.set a.1.interim_id (n + 1))
      (n + 1) hnd.2
      (by intro e he; rw [List.length_set]; exact hlt e (List.mem_cons_of_mem a he))
      (by simp only [List.length_cons] at hn; omega)
    refine ⟨id2id1, ?_, ?_, ?_, ?_⟩
    · simp only [store_loop, hmod, ha, if_true, h1, List.map_cons, List.append_assoc,
        List.singleton_append]
    · rw [h2, List.length_set]
    · intro i e he
      cases i with
      | zero =>
        simp only [List.getElem?_cons_zero, Option.some.injEq] at he
        subst he
        rw [h4 _ hnd.1, List.getElem?_set_self ha]
      | succ i =>
        rw [List.getElem?_cons_succ] at he
        rw [h3 i e he]
        congr 1
        omega
    · intro j hj
      rw [List.map_cons, List.mem_cons, not_or] at hj
      rw [h4 j hj.2, List.getElem?_set_ne (fun h => hj.1 h.symm)]

theorem map_find_of_mem {m : List (String × string_info)}
    (hnd : (m.map Prod.fst).Nodup) {k : String} {v : string_info} (hmem : (k, v) ∈ m) :
    map_find m k = some v := by
  induction m with
  | nil => cases hmem
  | cons e rest ih =>
    obtain ⟨k0, v0⟩ := e
    rw [List.map_cons, List.nodup_cons] at hnd
    rcases List.mem_cons.mp hmem with h | h
    · injection h with h1 h2
      subst h1; subst h2
      simp [map_find]
    · have hk : k0 ≠ k := by
        intro heq
        apply hnd.1
        rw [heq]
        exact List.mem_map.mpr ⟨(k, v), h, rfl⟩
      simp only [map_find, if_neg hk]
      exact ih hnd.2 h

theorem mem_of_map_find {m : List (String × string_info)} {k : String} {v : string_info}
    (h : map_find m k = some v) : (k, v) ∈ m := by
  induction m with
  | nil => simp [map_find] at h
  | cons e rest ih =>
    obtain ⟨k0, v0⟩ := e
    by_cases hk : k0 = k
    · simp only [map_find, if_pos hk, Option.some.injEq] at h
      subst hk; subst h
      exact List.mem_cons_self _ _
    · simp only [map_find, if_neg hk] at h
      exact List.mem_cons_of_mem _ (ih h)

theorem recorded_keys_nodup {t : StringTable} {l : List String} (h : Recorded t l) :
    (t.m_strings.map Prod.fst).Nodup :=
  h.keys_perm.nodup_iff.mpr (nodup_first_seen l)

theorem recorded_entry {t : StringTable} {l : List String} (h : Recorded t l)
    {k : String} {v : string_info} (hmem : (k, v) ∈ t.m_strings) :
    k ∈ l ∧ v = ⟨(l.count k - 1) % UINT16_SIZE, (first_seen l).indexOf k + 1⟩ := by
  have hk : k ∈ l :=
    (mem_first_seen l k).mp (h.keys_perm.mem_iff.mp (List.mem_map.mpr ⟨(k, v), hmem, rfl⟩))
  refine ⟨hk, ?_⟩
  have h1 := map_find_of_mem (recorded_keys_nodup h) hmem
  rw [h.find k hk] at h1
  injection h1 with h1
  exact h1.symm

theorem recorded_ids {t : StringTable} {l : List String} (h : Recorded t l) :
    t.m_strings.map (fun e => e.2.interim_id) =
      (t.m_strings.map Prod.fst).map (fun k => (first_seen l).indexOf k + 1) := by
  rw [List.map_map]
  apply List.map_congr_left
  intro e he
  obtain ⟨k, v⟩ := e
  obtain ⟨_, hv⟩ := recorded_entry h he
  simp [hv]

theorem recorded_ids_nodup {t : StringTable} {l : List String} (h : Recorded t l) :
    (t.m_strings.map (fun e => e.2.interim_id)).Nodup := by
  rw [recorded_ids h]
  apply List.Nodup.map_on _ (recorded_keys_nodup h)
  intro x hx y hy hxy
  have hx1 : x ∈ first_seen l := h.keys_perm.mem_iff.mp hx
  have hy1 : y ∈ first_seen l := h.keys_perm.mem_iff.mp hy
  exact (List.indexOf_inj hx1 hy1).mp (by omega)

theorem recorded_length {t : StringTable} {l : List String} (h : Recorded t l) :
    t.m_strings.length = t.m_size := by
  rw [h.size_eq, ← h.keys_perm.length_eq, List.length_map]

theorem length_vector_resize (v : List Nat) (n : Nat) : (vector_resize v n).length = n := by
  simp only [vector_resize, List.length_append, List.length_take, List.length_replicate]
  omega

theorem sortedbycount_keys_perm {t : StringTable} {l : List String} (h : Recorded t l) :
    ((sortedbycount t).map Prod.snd).Perm (first_seen l) := by
  refine ((sortedbycount_perm t).map Prod.snd).trans ?_
  rw [List.map_map]
  exact h.keys_perm

theorem sortedbycount_length {t : StringTable} {l : List String} (h : Recorded t l) :
    (sortedbycount t).length = (first_seen l).length := by
  rw [← (sortedbycount_keys_perm h).length_eq, List.length_map]

theorem sortedbycount_entry {t : StringTable} {l : List String} (h : Recorded t l)
    {e : string_info × String} (he : e ∈ sortedbycount t) :
    e.2 ∈ l ∧ e.1 = ⟨(l.count e.2 - 1) % UINT16_SIZE, (first_seen l).indexOf e.2 + 1⟩ := by
  have h1 := (sortedbycount_perm t).mem_iff.mp he
  obtain ⟨p, hp, hpe⟩ := List.mem_map.mp h1
  subst hpe
  obtain ⟨k, v⟩ := p
  exact recorded_entry h hp

theorem sortedbycount_mem {t : StringTable} {l : List String} (h : Recorded t l)
    {s : String} (hs : s ∈ l) :
    ∃ i : Nat, (sortedbycount t)[i]? =
      some ((⟨(l.count s - 1) % UINT16_SIZE, (first_seen l).indexOf s + 1⟩ : string_info),
        s) := by
  apply List.getElem?_of_mem
  apply (sortedbycount_perm t).mem_iff.mpr
  exact List.mem_map.mpr ⟨(s, _), mem_of_map_find (h.find s hs), rfl⟩

/-- On a recorded state `store_stringtable` succeeds, appends the empty string and then
the strings of `sortedbycount`, and maps the interim id of the element at position `i`
of `sortedbycount` to `i + 1`. -/
theorem store_recorded {t : StringTable} {l : List String} (h : Recorded t l)
    (st : List String) :
    ∃ id2id, store_stringtable t st =
        some (⟨t.m_strings, id2id, t.m_size⟩, st ++ "" :: (sortedbycount t).map Prod.snd) ∧
      id2id.length = t.m_size + 1 ∧
      (∀ i e, (sortedbycount t)[i]? = some e → id2id[e.1.interim_id]? = some (i + 1)) := by
  have hnd : ((sortedbycount t).map (fun e => e.1.interim_id)).Nodup := by
    have hp := (sortedbycount_perm t).map (fun e => e.1.interim_id)
    rw [List.map_map] at hp
    exact hp.nodup_iff.mpr (recorded_ids_nodup h)
  have hlt : ∀ e ∈ sortedbycount t,
      e.1.interim_id < (vector_resize t.m_id2id_map (t.m_size + 1)).length := by
    intro e he
    obtain ⟨hel, hev⟩ := sortedbycount_entry h he
    rw [length_vector_resize, hev, h.size_eq]
    have := List.indexOf_lt_length.mpr ((mem_first_seen l e.2).mpr hel)
    simp only
    omega
  have hn : 0 + (sortedbycount t).length < UINT16_SIZE := by
    rw [sortedbycount_length h, ← h.size_eq]
    have := h.size_lt
    simp only [STRING_ID_MAX, UINT16_SIZE] at *
    omega
  obtain ⟨id2id, h1, h2, h3, _⟩ := store_loop_spec (sortedbycount t) (st ++ [""])
    (vector_resize t.m_id2id_map (t.m_size + 1)) 0 hnd hlt hn
  refine ⟨id2id, ?_, ?_, ?_⟩
  · simp only [store_stringtable, h1, List.append_assoc, List.singleton_append]
  · rw [h2, length_vector_resize]
  · intro i e he
    rw [h3 i e he, Nat.zero_add]

theorem first_seen_length (l : List String) : (first_seen l).length = l.toFinset.card := by
  rw [← List.toFinset_card_of_nodup (nodup_first_seen l)]
  congr 1
  ext s
  simp [mem_first_seen]

theorem reached_recorded {t : StringTable} {l : List String} {ids : List Nat}
    (h : Reached t l ids) :
    Recorded t l ∧ ids = l.map (fun s => (first_seen l).indexOf s + 1) := by
  induction h with
  | fresh => exact ⟨recorded_fresh, rfl⟩
  | @record t0 t1 l0 ids0 s id _ hr ih =>
    obtain ⟨h1, h2, _⟩ := recorded_step ih.1 hr
    refine ⟨h1, ?_⟩
    rw [List.map_append, List.map_singleton, ← h2, ih.2]
    congr 1
    apply List.map_congr_left
    intro x hx
    rw [indexOf_first_seen_append l0 [s] x hx]
  | @store t0 t1 l0 ids0 st out _ hs ih =>
    refine ⟨?_, ih.2⟩
    simp only [store_stringtable] at hs
    split at hs
    · injection hs with hs
      injection hs with hs1 hs2
      subst hs1
      exact ⟨ih.1.keys_perm, ih.1.size_eq, ih.1.size_lt, ih.1.find⟩
    · cases hs
  | clear _ _ => exact ⟨recorded_fresh, rfl⟩

/-- The result of `store_stringtable` on a recorded state in terms of the history: the
output list, the size of the remap table, and the final id `j + 1` of the string at
position `j` of `sortedbycount`. -/
theorem store_recorded_final {t : StringTable} {l : List String} (h : Recorded t l)
    (st : List String) :
    ∃ id2id, store_stringtable t st =
        some (⟨t.m_strings, id2id, t.m_size⟩, st ++ "" :: (sortedbycount t).map Prod.snd) ∧
      id2id.length = (first_seen l).length + 1 ∧
      (∀ s ∈ l, ∃ j, j < (first_seen l).length ∧
        (sortedbycount t)[j]? = some ((⟨(l.count s - 1) % UINT16_SIZE,
          (first_seen l).indexOf s + 1⟩ : string_info), s) ∧
        id2id[(first_seen l).indexOf s + 1]? = some (j + 1)) ∧
      (∀ j, j < (first_seen l).length → ∃ s, s ∈ l ∧
        (sortedbycount t)[j]? = some ((⟨(l.count s - 1) % UINT16_SIZE,
          (first_seen l).indexOf s + 1⟩ : string_info), s) ∧
        id2id[(first_seen l).indexOf s + 1]? = some (j + 1)) := by
  obtain ⟨id2id, hst, hlen, hmap⟩ := store_recorded h st
  refine ⟨id2id, hst, by rw [hlen, h.size_eq], ?_, ?_⟩
  · intro s hs
    obtain ⟨j, hj⟩ := sortedbycount_mem h hs
    refine ⟨j, ?_, hj, hmap j _ hj⟩
    rw [← sortedbycount_length h]
    exact (List.getElem?_eq_some.mp hj).1
  · intro j hj
    rw [← sortedbycount_length h] at hj
    have hget : (sortedbycount t)[j]? = some ((sortedbycount t)[j]) :=
      List.getElem?_eq_getElem hj
    obtain ⟨hel, hev⟩ := sortedbycount_entry h (List.getElem_mem hj)
    refine ⟨_, hel, ?_, ?_⟩
    · rw [hget, ← hev]
    · have := hmap j _ hget
      rw [hev] at this
      exact this

theorem rank_lt {l : List String} {s : String} (hs : s ∈ l) :
    (first_seen l).indexOf s < (first_seen l).length :=
  List.indexOf_lt_length.mpr ((mem_first_seen l s).mpr hs)

/-! ## The claims -/

/-- C1: string table round trip.  After a successful sequence of `record_string` calls
on a new or just cleared table, `store_stringtable` into an empty output list succeeds,
and for every call that recorded `s` and returned the interim id `p`, the output list
holds `s` at index `map_string_id p`. -/
theorem round_trip_through_remap (t0 start : StringTable) (l : List String) (ids : List Nat)
    (t : StringTable) (hstart : start = StringTable.fresh ∨ start = clear t0)
    (hrec : record_strings start l = Except.ok (ids, t)) :
    ∃ t1 out, store_stringtable t [] = some (t1, out) ∧
      ∀ (i : Nat) (s : String) (p : Nat), l[i]? = some s → ids[i]? = some p →
        ∃ q, map_string_id t1 p = some q ∧ out[q]? = some s := by
  have hs : start = StringTable.fresh := by
    rcases hstart with h | h <;> exact h
  subst hs
  obtain ⟨hR, hids, _⟩ := recorded_of_run hrec
  obtain ⟨id2id, hst, _, hmap⟩ := store_recorded hR []
  refine ⟨_, _, hst, ?_⟩
  intro i s p hs hp
  have hsl : s ∈ l := List.mem_iff_getElem?.mpr ⟨i, hs⟩
  rw [hids, List.getElem?_map, hs, Option.map_some', Option.some.injEq] at hp
  obtain ⟨j, hj⟩ := sortedbycount_mem hR hsl
  refine ⟨j + 1, ?_, ?_⟩
  · have := hmap j _ hj
    simp only [map_string_id]
    rw [← hp]
    exact this
  · simp [hj]

/-- Witness of C1: three calls on a new table. -/
theorem round_trip_through_remap_witness :
    record_strings StringTable.fresh ["highway", "residential", "highway"] =
        Except.ok ([1, 2, 1], ⟨[("highway", ⟨1, 1⟩), ("residential", ⟨0, 2⟩)], [], 2⟩) ∧
      ∃ t1 out, store_stringtable
          ⟨[("highway", ⟨1, 1⟩), ("residential", ⟨0, 2⟩)], [], 2⟩ [] = some (t1, out) ∧
        ∀ (i : Nat) (s : String) (p : Nat),
          ["highway", "residential", "highway"][i]? = some s → [1, 2, 1][i]? = some p →
          ∃ q, map_string_id t1 p = some q ∧ out[q]? = some s :=
  ⟨rfl, round_trip_through_remap StringTable.fresh StringTable.fresh
    ["highway", "residential", "highway"] [1, 2, 1] _ (Or.inl rfl) rfl⟩

/-- C2: remap correctness.  After a successful sequence of `record_string` calls on a new
table that records `K` distinct strings, `store_stringtable` succeeds and `map_string_id`
maps every interim id of `1..K` to a final id of `1..K`, injectively and onto `1..K`. -/
theorem remap_is_bijection (l : List String) (ids : List Nat) (t : StringTable)
    (hrec : record_strings StringTable.fresh l = Except.ok (ids, t)) :
    ∃ t1 out, store_stringtable t [] = some (t1, out) ∧
      (∀ p, 1 ≤ p → p ≤ l.toFinset.card →
        ∃ q, map_string_id t1 p = some q ∧ 1 ≤ q ∧ q ≤ l.toFinset.card) ∧
      (∀ p1 p2, 1 ≤ p1 → p1 ≤ l.toFinset.card → 1 ≤ p2 → p2 ≤ l.toFinset.card →
        map_string_id t1 p1 = map_string_id t1 p2 → p1 = p2) ∧
      (∀ q, 1 ≤ q → q ≤ l.toFinset.card →
        ∃ p, 1 ≤ p ∧ p ≤ l.toFinset.card ∧ map_string_id t1 p = some q) := by
  obtain ⟨hR, _, _⟩ := recorded_of_run hrec
  obtain ⟨id2id, hst, _, hfwd, hbwd⟩ := store_recorded_final hR []
  rw [← first_seen_length]
  have hkey : ∀ p, 1 ≤ p → p ≤ (first_seen l).length →
      ∃ s, s ∈ l ∧ (first_seen l).indexOf s + 1 = p := by
    intro p hp1 hp2
    have hlt : p - 1 < (first_seen l).length := by omega
    refine ⟨(first_seen l)[p - 1], (mem_first_seen l _).mp (List.getElem_mem hlt), ?_⟩
    rw [List.indexOf_getElem (nodup_first_seen l) (p - 1) hlt]
    omega
  refine ⟨_, _, hst, ?_, ?_, ?_⟩
  · intro p hp1 hp2
    obtain ⟨s, hs, hsp⟩ := hkey p hp1 hp2
    obtain ⟨j, hj, _, hmap⟩ := hfwd s hs
    rw [hsp] at hmap
    exact ⟨j + 1, hmap, by omega, by omega⟩
  · intro p1 p2 hp1 hp1k hp2 hp2k heq
    obtain ⟨s1, hs1, hsp1⟩ := hkey p1 hp1 hp1k
    obtain ⟨s2, hs2, hsp2⟩ := hkey p2 hp2 hp2k
    obtain ⟨j1, _, hL1, hmap1⟩ := hfwd s1 hs1
    obtain ⟨j2, _, hL2, hmap2⟩ := hfwd s2 hs2
    rw [hsp1] at hmap1 hL1
    rw [hsp2] at hmap2 hL2
    simp only [map_string_id] at heq
    rw [hmap1, hmap2, Option.some.injEq] at heq
    have hj : j1 = j2 := by omega
    rw [hj, hL2, Option.some.injEq, Prod.mk.injEq, string_info.mk.injEq] at hL1
    exact hL1.1.2.symm
  · intro q hq1 hq2
    obtain ⟨s, hs, _, hmap⟩ := hbwd (q - 1) (by omega)
    have hr := rank_lt hs
    refine ⟨(first_seen l).indexOf s + 1, by omega, by omega, ?_⟩
    simp only [map_string_id]
    rw [hmap]
    congr 1
    omega

/-- Witness of C2: two distinct strings, one of them recorded twice. -/
theorem remap_is_bijection_witness :
    record_strings StringTable.fresh ["a", "b", "b"] =
        Except.ok ([1, 2, 2], ⟨[("a", ⟨0, 1⟩), ("b", ⟨1, 2⟩)], [], 2⟩) ∧
      ∃ t1 out, store_stringtable ⟨[("a", ⟨0, 1⟩), ("b", ⟨1, 2⟩)], [], 2⟩ [] =
          some (t1, out) ∧
        (∀ p, 1 ≤ p → p ≤ ["a", "b", "b"].toFinset.card →
          ∃ q, map_string_id t1 p = some q ∧ 1 ≤ q ∧ q ≤ ["a", "b", "b"].toFinset.card) ∧
        (∀ p1 p2, 1 ≤ p1 → p1 ≤ ["a", "b", "b"].toFinset.card → 1 ≤ p2 →
          p2 ≤ ["a", "b", "b"].toFinset.card →
          map_string_id t1 p1 = map_string_id t1 p2 → p1 = p2) ∧
        (∀ q, 1 ≤ q → q ≤ ["a", "b", "b"].toFinset.card →
          ∃ p, 1 ≤ p ∧ p ≤ ["a", "b", "b"].toFinset.card ∧ map_string_id t1 p = some q) :=
  ⟨rfl, remap_is_bijection ["a", "b", "b"] [1, 2, 2] _ rfl⟩

/-- C3: frequency ordering.  After a successful sequence of `record_string` calls on a
new table, `store_stringtable` succeeds, and of two recorded strings the one with the
strictly greater stored count gets the strictly smaller final id. -/
theorem frequency_ordering (l : List String) (ids : List Nat) (t : StringTable)
    (a b : String) (ia ib : string_info)
    (hrec : record_strings StringTable.fresh l = Except.ok (ids, t))
    (ha : map_find t.m_strings a = some ia) (hb : map_find t.m_strings b = some ib)
    (hcount : ib.count < ia.count) :
    ∃ t1 out qa qb, store_stringtable t [] = some (t1, out) ∧
      map_string_id t1 ia.interim_id = some qa ∧
      map_string_id t1 ib.interim_id = some qb ∧ qa < qb := by
  obtain ⟨hR, _, _⟩ := recorded_of_run hrec
  obtain ⟨id2id, hst, _, hfwd, _⟩ := store_recorded_final hR []
  obtain ⟨hal, hav⟩ := recorded_entry hR (mem_of_map_find ha)
  obtain ⟨hbl, hbv⟩ := recorded_entry hR (mem_of_map_find hb)
  obtain ⟨ja, _, hLa, hmapa⟩ := hfwd a hal
  obtain ⟨jb, _, hLb, hmapb⟩ := hfwd b hbl
  rw [← hav] at hLa
  rw [← hbv] at hLb
  refine ⟨_, _, ja + 1, jb + 1, hst, ?_, ?_, ?_⟩
  · simp only [map_string_id]; rw [hav]; exact hmapa
  · simp only [map_string_id]; rw [hbv]; exact hmapb
  · by_contra hcon
    have hle : jb ≤ ja := by omega
    have := countSorted_getElem (sortedbycount_sorted t) hle hLb hLa
    simp only at this
    omega

/-- Witness of C3: "highway" is reused once, "residential" never. -/
theorem frequency_ordering_witness :
    record_strings StringTable.fresh ["highway", "residential", "highway"] =
        Except.ok ([1, 2, 1], ⟨[("highway", ⟨1, 1⟩), ("residential", ⟨0, 2⟩)], [], 2⟩) ∧
      ∃ t1 out qa qb, store_stringtable
          ⟨[("highway", ⟨1, 1⟩), ("residential", ⟨0, 2⟩)], [], 2⟩ [] = some (t1, out) ∧
        map_string_id t1 1 = some qa ∧ map_string_id t1 2 = some qb ∧ qa < qb :=
  ⟨rfl, frequency_ordering ["highway", "residential", "highway"] [1, 2, 1] _
    "highway" "residential" ⟨1, 1⟩ ⟨0, 2⟩ rfl rfl rfl (by decide)⟩

/-- C4: the tie-break on the code.  Two strings recorded once each have equal stored
counts; `store_stringtable` writes them in ascending order, so the lexicographically
smaller string "a" gets final id 1 and the greater string "b" final id 2.  With the
strings "b" and "d" reused once among "a", "c", "e", the entries of count 1 come out
ascending ("b", "d") and the entries of count 0 descending ("e", "c", "a"). -/
theorem tie_break_equal_counts_ascending :
    record_strings StringTable.fresh ["a", "b"] =
        Except.ok ([1, 2], ⟨[("a", ⟨0, 1⟩), ("b", ⟨0, 2⟩)], [], 2⟩) ∧
      string_less "a" "b" = true ∧
      store_stringtable ⟨[("a", ⟨0, 1⟩), ("b", ⟨0, 2⟩)], [], 2⟩ [] =
        some (⟨[("a", ⟨0, 1⟩), ("b", ⟨0, 2⟩)], [0, 1, 2], 2⟩, ["", "a", "b"]) ∧
      record_strings StringTable.fresh ["a", "b", "b", "c", "d", "d", "e"] =
        Except.ok ([1, 2, 2, 3, 4, 4, 5],
          ⟨[("a", ⟨0, 1⟩), ("b", ⟨1, 2⟩), ("c", ⟨0, 3⟩), ("d", ⟨1, 4⟩), ("e", ⟨0, 5⟩)],
            [], 5⟩) ∧
      store_stringtable
          ⟨[("a", ⟨0, 1⟩), ("b", ⟨1, 2⟩), ("c", ⟨0, 3⟩), ("d", ⟨1, 4⟩), ("e", ⟨0, 5⟩)],
            [], 5⟩ [] =
        some (⟨[("a", ⟨0, 1⟩), ("b", ⟨1, 2⟩), ("c", ⟨0, 3⟩), ("d", ⟨1, 4⟩), ("e", ⟨0, 5⟩)],
            [0, 5, 1, 4, 2, 3], 5⟩, ["", "b", "d", "e", "c", "a"]) :=
  ⟨rfl, rfl, rfl, rfl, rfl⟩

/-- C5: recording a new string.  In a reachable state whose current block has the
history `l`, a successful `record_string` of a string that is not in `l` returns the
number of distinct strings of `l` plus one, which is `m_size + 1`, stores the string with
count 0 and that id, and raises `m_size` and the number of entries by one.  The first
call on a new table returns 1. -/
theorem record_new_string (t : StringTable) (l : List String) (ids : List Nat)
    (text : String) (id : Nat) (t1 : StringTable)
    (hreach : Reached t l ids) (hnew : text ∉ l)
    (hrec : record_string t text = Except.ok (id, t1)) :
    id = l.toFinset.card + 1 ∧ id = t.m_size + 1 ∧
      map_find t.m_strings text = none ∧
      map_find t1.m_strings text = some ⟨0, id⟩ ∧
      t1.m_size = t.m_size + 1 ∧
      t1.m_strings.length = t.m_strings.length + 1 ∧
      record_string StringTable.fresh text =
        Except.ok (1, ⟨[(text, ⟨0, 1⟩)], [], 1⟩) := by
  obtain ⟨hR, _⟩ := reached_recorded hreach
  have habs := recorded_absent hR hnew
  have hfresh : record_string StringTable.fresh text =
      Except.ok (1, ⟨[(text, ⟨0, 1⟩)], [], 1⟩) := by
    rw [record_string_new StringTable.fresh text rfl (by decide)]
    simp [StringTable.fresh, map_insert, map_assign]
  by_cases hsize : t.m_size + 1 < STRING_ID_MAX
  · rw [record_string_new t text habs hsize] at hrec
    injection hrec with hrec
    injection hrec with hid ht
    subst hid; subst ht
    have hR1 := recorded_step_new hR hnew hsize
    refine ⟨?_, rfl, habs, ?_, rfl, ?_, hfresh⟩
    · rw [← first_seen_length, hR.size_eq]
    · simp only [map_find_assign, map_find_insert _ _ _ habs, if_true, Option.map_some']
    · rw [recorded_length hR1, recorded_length hR]
  · rw [record_string_full t text habs hsize] at hrec
    cases hrec

/-- Witness of C5: a second string on a table that holds one string. -/
theorem record_new_string_witness :
    Reached ⟨[("a", ⟨0, 1⟩)], [], 1⟩ ["a"] [1] ∧ "b" ∉ ["a"] ∧
      record_string ⟨[("a", ⟨0, 1⟩)], [], 1⟩ "b" =
        Except.ok (2, ⟨[("a", ⟨0, 1⟩), ("b", ⟨0, 2⟩)], [], 2⟩) ∧
      (2 = ["a"].toFinset.card + 1 ∧ 2 = (⟨[("a", ⟨0, 1⟩)], [], 1⟩ : StringTable).m_size + 1 ∧
        map_find (⟨[("a", ⟨0, 1⟩)], [], 1⟩ : StringTable).m_strings "b" = none ∧
        map_find (⟨[("a", ⟨0, 1⟩), ("b", ⟨0, 2⟩)], [], 2⟩ : StringTable).m_strings "b" =
          some ⟨0, 2⟩ ∧
        (⟨[("a", ⟨0, 1⟩), ("b", ⟨0, 2⟩)], [], 2⟩ : StringTable).m_size =
          (⟨[("a", ⟨0, 1⟩)], [], 1⟩ : StringTable).m_size + 1 ∧
        (⟨[("a", ⟨0, 1⟩), ("b", ⟨0, 2⟩)], [], 2⟩ : StringTable).m_strings.length =
          (⟨[("a", ⟨0, 1⟩)], [], 1⟩ : StringTable).m_strings.length + 1 ∧
        record_string StringTable.fresh "b" = Except.ok (1, ⟨[("b", ⟨0, 1⟩)], [], 1⟩)) :=
  ⟨Reached.record Reached.fresh rfl, by decide, rfl,
    record_new_string ⟨[("a", ⟨0, 1⟩)], [], 1⟩ ["a"] [1] "b" 2
      ⟨[("a", ⟨0, 1⟩), ("b", ⟨0, 2⟩)], [], 2⟩
      (Reached.record Reached.fresh rfl) (by decide) rfl⟩

/-- C6: idempotent id assignment.  In a reachable state whose current block has the
history `l` with returned ids `ids`, recording again a string that the `i`-th call
recorded succeeds and returns the id `p` that the `i`-th call returned; `m_size` and the
keys of `m_strings` stay as they are, and one more call returns `p` again. -/
theorem record_seen_string (t : StringTable) (l : List String) (ids : List Nat)
    (i : Nat) (text : String) (p : Nat)
    (hreach : Reached t l ids) (hs : l[i]? = some text) (hp : ids[i]? = some p) :
    ∃ t1 t2, record_string t text = Except.ok (p, t1) ∧
      t1.m_size = t.m_size ∧
      t1.m_strings.map Prod.fst = t.m_strings.map Prod.fst ∧
      record_string t1 text = Except.ok (p, t2) := by
  obtain ⟨hR, hids⟩ := reached_recorded hreach
  have hsl : text ∈ l := List.mem_iff_getElem?.mpr ⟨i, hs⟩
  rw [hids, List.getElem?_map, hs, Option.map_some', Option.some.injEq] at hp
  have h1 := record_string_seen t text _ (hR.find text hsl) (by simp)
  simp only at h1
  rw [hp] at h1
  have hR1 := recorded_step_seen hR hsl
  have hsl1 : text ∈ l ++ [text] := by simp
  have hfs : first_seen (l ++ [text]) = first_seen l := by
    rw [first_seen_snoc, if_pos ((mem_first_seen l text).mpr hsl)]
  have h2 := record_string_seen _ text _ (hR1.find text hsl1) (by simp)
  simp only [hfs, hp] at h2
  rw [hp] at hR1
  exact ⟨_, _, h1, rfl, by simp only [map_assign_keys], h2⟩

/-- Witness of C6: "a" was recorded first and is recorded again. -/
theorem record_seen_string_witness :
    Reached ⟨[("a", ⟨0, 1⟩)], [], 1⟩ ["a"] [1] ∧
      ∃ t1 t2, record_string ⟨[("a", ⟨0, 1⟩)], [], 1⟩ "a" = Except.ok (1, t1) ∧
        t1.m_size = (⟨[("a", ⟨0, 1⟩)], [], 1⟩ : StringTable).m_size ∧
        t1.m_strings.map Prod.fst =
          (⟨[("a", ⟨0, 1⟩)], [], 1⟩ : StringTable).m_strings.map Prod.fst ∧
        record_string t1 "a" = Except.ok (1, t2) :=
  ⟨Reached.record Reached.fresh rfl,
    record_seen_string ⟨[("a", ⟨0, 1⟩)], [], 1⟩ ["a"] [1] 0 "a" 1
      (Reached.record Reached.fresh rfl) rfl rfl⟩

theorem record_same_again (s : String) (n : Nat) : ∀ c, c < UINT16_SIZE →
    record_strings ⟨[(s, ⟨c, 1⟩)], [], 1⟩ (List.replicate n s) =
      Except.ok (List.replicate n 1, ⟨[(s, ⟨(c + n) % UINT16_SIZE, 1⟩)], [], 1⟩) := by
  induction n with
  | zero =>
    intro c hc
    simp only [List.replicate_zero, record_strings, Nat.add_zero, Nat.mod_eq_of_lt hc]
  | succ n ih =>
    intro c hc
    have hstep : record_string ⟨[(s, ⟨c, 1⟩)], [], 1⟩ s =
        Except.ok (1, ⟨[(s, ⟨(c + 1) % UINT16_SIZE, 1⟩)], [], 1⟩) := by
      simp [record_string, map_index, map_find, map_assign]
    have hlt : (c + 1) % UINT16_SIZE < UINT16_SIZE := Nat.mod_lt _ (by decide)
    simp only [List.replicate_succ, record_strings, hstep, ih _ hlt]
    have : ((c + 1) % UINT16_SIZE + n) % UINT16_SIZE = (c + (n + 1)) % UINT16_SIZE := by
      simp only [UINT16_SIZE]
      omega
    rw [this]

theorem record_strings_cons {t t1 t2 : StringTable} {s : String} {rest : List String}
    {id : Nat} {ids : List Nat} (h1 : record_string t s = Except.ok (id, t1))
    (h2 : record_strings t1 rest = Except.ok (ids, t2)) :
    record_strings t (s :: rest) = Except.ok (id :: ids, t2) := by
  simp only [record_strings, h1, h2]

/-- C7: the occurrence count on the code.  A string recorded 65537 times on a new table
ends with the stored count 0: the 16-bit `count` has wrapped, where the number of
recordings minus one is 65536. -/
theorem stored_count_wraps :
    record_strings StringTable.fresh (List.replicate 65537 "a") =
        Except.ok (List.replicate 65537 1, ⟨[("a", ⟨0, 1⟩)], [], 1⟩) ∧
      (List.replicate 65537 "a").count "a" - 1 = 65536 := by
  constructor
  · have h1 : record_string StringTable.fresh "a" =
        Except.ok (1, ⟨[("a", ⟨0, 1⟩)], [], 1⟩) := rfl
    have h2 := record_same_again "a" 65536 0 (by decide)
    rw [show (65537 : Nat) = 65536 + 1 from rfl, List.replicate_succ, List.replicate_succ]
    exact record_strings_cons h1 h2
  · rw [List.count_replicate_self]

/-- The value that `count++` leaves in the 16-bit field after a successful sequence of
`record_string` calls on a new table: the number of recordings minus one up to 65536
recordings of the string, and its remainder modulo `2^16` once the field has wrapped. -/
theorem stored_count_mod (l : List String) (ids : List Nat) (t : StringTable) (s : String)
    (hrec : record_strings StringTable.fresh l = Except.ok (ids, t)) (hs : s ∈ l) :
    ∃ info, map_find t.m_strings s = some info ∧
      info.count = (l.count s - 1) % 65536 ∧
      (l.count s ≤ 65536 → info.count = l.count s - 1) := by
  obtain ⟨hR, _, _⟩ := recorded_of_run hrec
  refine ⟨_, hR.find s hs, rfl, ?_⟩
  intro hle
  have hpos : 0 < l.count s := List.count_pos_iff.mpr hs
  simp only [UINT16_SIZE]
  omega

theorem exists_of_rank (l : List String) (p : Nat) (hp1 : 1 ≤ p)
    (hp2 : p ≤ (first_seen l).length) :
    ∃ s, s ∈ l ∧ (first_seen l).indexOf s + 1 = p := by
  have hlt : p - 1 < (first_seen l).length := by omega
  refine ⟨(first_seen l)[p - 1], (mem_first_seen l _).mp (List.getElem_mem hlt), ?_⟩
  rw [List.indexOf_getElem (nodup_first_seen l) (p - 1) hlt]
  omega

theorem rank_of_first_occurrence (l : List String) (j : Nat) (s : String)
    (hs : l[j]? = some s) (hfirst : s ∉ l.take j) :
    (first_seen l).indexOf s = (l.take j).toFinset.card := by
  obtain ⟨hj, hget⟩ := List.getElem?_eq_some.mp hs
  have hsplit : l = (l.take j ++ [s]) ++ l.drop (j + 1) := by
    rw [List.append_assoc, List.singleton_append, ← hget, List.getElem_cons_drop,
      List.take_append_drop]
  have hnot : s ∉ first_seen (l.take j) := fun hm => hfirst ((mem_first_seen _ s).mp hm)
  conv_lhs => rw [hsplit]
  rw [indexOf_first_seen_append (l.take j ++ [s]) _ s (by simp), first_seen_snoc,
    if_neg hnot, List.indexOf_append_of_not_mem hnot, List.indexOf_cons_self,
    first_seen_length]
  rfl

/-- C8: id density and first-seen order.  After a successful sequence of `record_string`
calls on a new table with `K` distinct strings, the interim ids stored in the entries,
and the ids returned, are exactly `1..K`; a string that occurs first at position `j`
of the sequence has the number of distinct strings in front of it plus one as interim id;
and no entry has interim id 0. -/
theorem id_density (l : List String) (ids : List Nat) (t : StringTable)
    (hrec : record_strings StringTable.fresh l = Except.ok (ids, t)) :
    (∀ p, (∃ e ∈ t.m_strings, e.2.interim_id = p) ↔ (1 ≤ p ∧ p ≤ l.toFinset.card)) ∧
      (∀ p, p ∈ ids ↔ (1 ≤ p ∧ p ≤ l.toFinset.card)) ∧
      (∀ (j : Nat) (s : String), l[j]? = some s → s ∉ l.take j →
        ∃ info, map_find t.m_strings s = some info ∧
          info.interim_id = (l.take j).toFinset.card + 1 ∧
          ids[j]? = some ((l.take j).toFinset.card + 1)) ∧
      (∀ e ∈ t.m_strings, e.2.interim_id ≠ 0) := by
  obtain ⟨hR, hids, _⟩ := recorded_of_run hrec
  rw [← first_seen_length]
  refine ⟨?_, ?_, ?_, ?_⟩
  · intro p
    constructor
    · rintro ⟨e, he, hep⟩
      obtain ⟨k, v⟩ := e
      obtain ⟨hk, hv⟩ := recorded_entry hR he
      have := rank_lt hk
      simp only [hv] at hep
      omega
    · rintro ⟨hp1, hp2⟩
      obtain ⟨s, hs, hsp⟩ := exists_of_rank l p hp1 hp2
      exact ⟨(s, _), mem_of_map_find (hR.find s hs), hsp⟩
  · intro p
    rw [hids, List.mem_map]
    constructor
    · rintro ⟨s, hs, hsp⟩
      have := rank_lt hs
      omega
    · rintro ⟨hp1, hp2⟩
      exact exists_of_rank l p hp1 hp2
  · intro j s hs hfirst
    have hsl : s ∈ l := List.mem_iff_getElem?.mpr ⟨j, hs⟩
    refine ⟨_, hR.find s hsl, ?_, ?_⟩
    · simp only [rank_of_first_occurrence l j s hs hfirst]
    · rw [hids, List.getElem?_map, hs, Option.map_some',
        rank_of_first_occurrence l j s hs hfirst]
  · intro e he
    obtain ⟨k, v⟩ := e
    obtain ⟨_, hv⟩ := recorded_entry hR he
    simp [hv]

/-- Witness of C8: three calls with two distinct strings. -/
theorem id_density_witness :
    record_strings StringTable.fresh ["highway", "residential", "highway"] =
        Except.ok ([1, 2, 1], ⟨[("highway", ⟨1, 1⟩), ("residential", ⟨0, 2⟩)], [], 2⟩) ∧
      ((∀ p, (∃ e ∈ (⟨[("highway", ⟨1, 1⟩), ("residential", ⟨0, 2⟩)], [], 2⟩ :
            StringTable).m_strings, e.2.interim_id = p) ↔
          (1 ≤ p ∧ p ≤ ["highway", "residential", "highway"].toFinset.card)) ∧
        (∀ p, p ∈ [1, 2, 1] ↔
          (1 ≤ p ∧ p ≤ ["highway", "residential", "highway"].toFinset.card)) ∧
        (∀ (j : Nat) (s : String), ["highway", "residential", "highway"][j]? = some s →
          s ∉ ["highway", "residential", "highway"].take j →
          ∃ info, map_find (⟨[("highway", ⟨1, 1⟩), ("residential", ⟨0, 2⟩)], [], 2⟩ :
              StringTable).m_strings s = some info ∧
            info.interim_id =
              (["highway", "residential", "highway"].take j).toFinset.card + 1 ∧
            [1, 2, 1][j]? =
              some ((["highway", "residential", "highway"].take j).toFinset.card + 1)) ∧
        (∀ e ∈ (⟨[("highway", ⟨1, 1⟩), ("residential", ⟨0, 2⟩)], [], 2⟩ :
            StringTable).m_strings, e.2.interim_id ≠ 0)) :=
  ⟨rfl, id_density ["highway", "residential", "highway"] [1, 2, 1] _ rfl⟩

/-- C9: sentinel preservation.  After any successful sequence of `record_string` calls
on a new table, the empty sequence included, `store_stringtable` into an empty output list
succeeds, the output entry at index 0 is the empty string, and the final id of every
recorded string is defined and not 0. -/
theorem sentinel_preserved (l : List String) (ids : List Nat) (t : StringTable)
    (hrec : record_strings StringTable.fresh l = Except.ok (ids, t)) :
    ∃ t1 out, store_stringtable t [] = some (t1, out) ∧ out[0]? = some "" ∧
      ∀ (i : Nat) (s : String) (p : Nat), l[i]? = some s → ids[i]? = some p →
        ∃ q, map_string_id t1 p = some q ∧ q ≠ 0 := by
  obtain ⟨hR, hids, _⟩ := recorded_of_run hrec
  obtain ⟨id2id, hst, _, hfwd, _⟩ := store_recorded_final hR []
  refine ⟨_, _, hst, by simp, ?_⟩
  intro i s p hs hp
  have hsl : s ∈ l := List.mem_iff_getElem?.mpr ⟨i, hs⟩
  rw [hids, List.getElem?_map, hs, Option.map_some', Option.some.injEq] at hp
  obtain ⟨j, _, _, hmap⟩ := hfwd s hsl
  rw [hp] at hmap
  exact ⟨j + 1, hmap, by omega⟩

/-- Witness of C9: two strings recorded once each. -/
theorem sentinel_preserved_witness :
    record_strings StringTable.fresh ["x", "y"] =
        Except.ok ([1, 2], ⟨[("x", ⟨0, 1⟩), ("y", ⟨0, 2⟩)], [], 2⟩) ∧
      ∃ t1 out, store_stringtable ⟨[("x", ⟨0, 1⟩), ("y", ⟨0, 2⟩)], [], 2⟩ [] =
          some (t1, out) ∧
        out[0]? = some "" ∧
        ∀ (i : Nat) (s : String) (p : Nat), ["x", "y"][i]? = some s →
          [1, 2][i]? = some p → ∃ q, map_string_id t1 p = some q ∧ q ≠ 0 :=
  ⟨rfl, sentinel_preserved ["x", "y"] [1, 2] _ rfl⟩

/-- C10, counterexample: when the empty string is recorded, it is stored twice, as the
reserved entry at index 0 and as the recorded string at index 1. -/
theorem empty_string_stored_twice :
    record_strings StringTable.fresh [""] =
        Except.ok ([1], ⟨[("", ⟨0, 1⟩)], [], 1⟩) ∧
      store_stringtable ⟨[("", ⟨0, 1⟩)], [], 1⟩ [] =
        some (⟨[("", ⟨0, 1⟩)], [0, 1], 1⟩, ["", ""]) ∧
      ["", ""].count "" = 2 :=
  ⟨rfl, rfl, rfl⟩

/-- C10, as amended: after a successful sequence of `record_string` calls on a new table
with `K` distinct strings, `store_stringtable` into an empty output list succeeds with
`K + 1` entries: the reserved empty string at index 0, and behind it every recorded
string exactly once and nothing else.  So a recorded string other than the empty string
occurs exactly once in the whole list, and a recorded empty string occurs twice. -/
theorem each_string_stored_once (l : List String) (ids : List Nat) (t : StringTable)
    (hrec : record_strings StringTable.fresh l = Except.ok (ids, t)) :
    ∃ t1 out, store_stringtable t [] = some (t1, out) ∧
      out.length = l.toFinset.card + 1 ∧ out[0]? = some "" ∧
      (∀ s ∈ l, out.tail.count s = 1) ∧ (∀ s ∈ out.tail, s ∈ l) ∧
      (∀ s ∈ l, s ≠ "" → out.count s = 1) ∧ ("" ∈ l → out.count "" = 2) := by
  obtain ⟨hR, _, _⟩ := recorded_of_run hrec
  obtain ⟨id2id, hst, _⟩ := store_recorded hR []
  have hperm := sortedbycount_keys_perm hR
  have hcount : ∀ s ∈ l, ((sortedbycount t).map Prod.snd).count s = 1 := by
    intro s hs
    rw [hperm.count_eq]
    exact List.count_eq_one_of_mem (nodup_first_seen l) ((mem_first_seen l s).mpr hs)
  refine ⟨_, _, hst, ?_, by simp, ?_, ?_, ?_, ?_⟩
  · simp only [List.nil_append, List.length_cons, List.length_map]
    rw [sortedbycount_length hR, first_seen_length]
  · intro s hs
    simpa using hcount s hs
  · intro s hs
    simp only [List.nil_append, List.tail_cons] at hs
    exact (mem_first_seen l s).mp (hperm.mem_iff.mp hs)
  · intro s hs hne
    simp only [List.nil_append]
    rw [List.count_cons_of_ne hne]
    exact hcount s hs
  · intro hs
    simp only [List.nil_append]
    rw [List.count_cons_self, hcount "" hs]

/-- Witness of C10 as amended: the empty string and one other string. -/
theorem each_string_stored_once_witness :
    record_strings StringTable.fresh ["", "x", ""] =
        Except.ok ([1, 2, 1], ⟨[("", ⟨1, 1⟩), ("x", ⟨0, 2⟩)], [], 2⟩) ∧
      ∃ t1 out, store_stringtable ⟨[("", ⟨1, 1⟩), ("x", ⟨0, 2⟩)], [], 2⟩ [] =
          some (t1, out) ∧
        out.length = ["", "x", ""].toFinset.card + 1 ∧ out[0]? = some "" ∧
        (∀ s ∈ ["", "x", ""], out.tail.count s = 1) ∧
        (∀ s ∈ out.tail, s ∈ ["", "x", ""]) ∧
        (∀ s ∈ ["", "x", ""], s ≠ "" → out.count s = 1) ∧
        ("" ∈ ["", "x", ""] → out.count "" = 2) :=
  ⟨rfl, each_string_stored_once ["", "x", ""] [1, 2, 1] _ rfl⟩

theorem record_string_frame {t t1 : StringTable} {s : String} {id : Nat}
    (h : record_string t s = Except.ok (id, t1)) : t1.m_id2id_map = t.m_id2id_map := by
  unfold record_string at h
  simp only at h
  split at h
  · split at h
    · injection h with h
      injection h with _ h
      rw [← h]
    · cases h
  · injection h with h
    injection h with _ h
    rw [← h]

theorem record_strings_frame (r : List String) : ∀ (t t1 : StringTable) (ids : List Nat),
    record_strings t r = Except.ok (ids, t1) → t1.m_id2id_map = t.m_id2id_map := by
  induction r with
  | nil =>
    intro t t1 ids h
    simp only [record_strings] at h
    injection h with h
    injection h with _ h
    rw [← h]
  | cons s r ih =>
    intro t t1 ids h
    simp only [record_strings] at h
    cases h1 : record_string t s with
    | error e => rw [h1] at h; cases h
    | ok res =>
      obtain ⟨id, t2⟩ := res
      rw [h1] at h
      simp only at h
      cases h2 : record_strings t2 r with
      | error e => rw [h2] at h; cases h
      | ok res2 =>
        obtain ⟨ids2, t3⟩ := res2
        rw [h2] at h
        simp only at h
        injection h with h
        injection h with _ h
        subst h
        rw [ih t2 t3 ids2 h2, record_string_frame h1]

theorem store_loop_output (L : Multimap) : ∀ (st : List String) (id2id : List Nat) (n : Nat)
    (out : List String) (res : List Nat), store_loop L st id2id n = some (out, res) →
    out = st ++ L.map Prod.snd ∧ res.length = id2id.length := by
  induction L with
  | nil =>
    intro st id2id n out res h
    simp only [store_loop, Option.some.injEq, Prod.mk.injEq] at h
    obtain ⟨h1, h2⟩ := h
    subst h1; subst h2
    simp
  | cons a rest ih =>
    intro st id2id n out res h
    simp only [store_loop] at h
    split at h
    · obtain ⟨h1, h2⟩ := ih _ _ _ _ _ h
      rw [h1, h2, List.length_set]
      simp
    · cases h

theorem store_stringtable_frame {t t1 : StringTable} {st out : List String}
    (h : store_stringtable t st = some (t1, out)) :
    t1.m_strings = t.m_strings ∧ t1.m_size = t.m_size ∧
      out = st ++ "" :: (sortedbycount t).map Prod.snd ∧
      t1.m_id2id_map.length = t.m_size + 1 := by
  simp only [store_stringtable] at h
  split at h
  · rename_i st1 id2id hloop
    simp only [Option.some.injEq, Prod.mk.injEq] at h
    obtain ⟨h1, h2⟩ := h
    subst h1; subst h2
    obtain ⟨ho, hl⟩ := store_loop_output _ _ _ _ _ _ hloop
    refine ⟨rfl, rfl, ?_, ?_⟩
    · rw [ho]; simp
    · simp only [hl, length_vector_resize]
  · cases h

/-- C13: reset clears state.  For every state, `clear` gives the state of a newly
constructed table; the next `record_string` of any string returns 1, and every following
sequence of `record_string` calls, `store_stringtable` and `map_string_id` gives the
results it gives on a new table. -/
theorem clear_gives_fresh (t : StringTable) :
    clear t = StringTable.fresh ∧
      (clear t).m_strings = [] ∧ (clear t).m_id2id_map = [] ∧ (clear t).m_size = 0 ∧
      (∀ s, record_string (clear t) s = Except.ok (1, ⟨[(s, ⟨0, 1⟩)], [], 1⟩)) ∧
      (∀ l, record_strings (clear t) l = record_strings StringTable.fresh l) ∧
      (∀ st, store_stringtable (clear t) st = store_stringtable StringTable.fresh st) ∧
      (∀ p, map_string_id (clear t) p = map_string_id StringTable.fresh p) := by
  refine ⟨rfl, rfl, rfl, rfl, ?_, fun _ => rfl, fun _ => rfl, fun _ => rfl⟩
  intro s
  have h : clear t = StringTable.fresh := rfl
  rw [h, record_string_new StringTable.fresh s rfl (by decide)]
  simp [StringTable.fresh, map_insert, map_assign]

/-- C14: the worked example.  On a new table the six calls return 1, 2, 1, 3, 2, 2 and
leave the counts highway 1, residential 2, name 0; `store_stringtable` then writes the
empty string, "residential", "highway", "name", and maps 1 to 2, 2 to 1 and 3 to 3. -/
theorem worked_example :
    record_strings StringTable.fresh
        ["highway", "residential", "highway", "name", "residential", "residential"] =
      Except.ok ([1, 2, 1, 3, 2, 2],
        ⟨[("highway", ⟨1, 1⟩), ("name", ⟨0, 3⟩), ("residential", ⟨2, 2⟩)], [], 3⟩) ∧
    store_stringtable
        ⟨[("highway", ⟨1, 1⟩), ("name", ⟨0, 3⟩), ("residential", ⟨2, 2⟩)], [], 3⟩ [] =
      some (⟨[("highway", ⟨1, 1⟩), ("name", ⟨0, 3⟩), ("residential", ⟨2, 2⟩)],
        [0, 2, 1, 3], 3⟩, ["", "residential", "highway", "name"]) ∧
    map_string_id ⟨[("highway", ⟨1, 1⟩), ("name", ⟨0, 3⟩), ("residential", ⟨2, 2⟩)],
        [0, 2, 1, 3], 3⟩ 1 = some 2 ∧
    map_string_id ⟨[("highway", ⟨1, 1⟩), ("name", ⟨0, 3⟩), ("residential", ⟨2, 2⟩)],
        [0, 2, 1, 3], 3⟩ 2 = some 1 ∧
    map_string_id ⟨[("highway", ⟨1, 1⟩), ("name", ⟨0, 3⟩), ("residential", ⟨2, 2⟩)],
        [0, 2, 1, 3], 3⟩ 3 = some 3 :=
  ⟨rfl, rfl, rfl, rfl, rfl⟩

/-- C16: lookup safety.  After a successful sequence of `record_string` calls on a new
table with `K` distinct strings, `store_stringtable` succeeds, which means that every
index it writes is within bounds; the remap table has exactly `K + 1` slots, and every
interim id that `record_string` returned is an index within bounds, so that
`map_string_id` of it is defined. -/
theorem lookup_in_bounds (l : List String) (ids : List Nat) (t : StringTable)
    (hrec : record_strings StringTable.fresh l = Except.ok (ids, t)) :
    ∃ t1 out, store_stringtable t [] = some (t1, out) ∧
      t1.m_id2id_map.length = l.toFinset.card + 1 ∧
      (∀ p ∈ ids, p < t1.m_id2id_map.length ∧ ∃ q, map_string_id t1 p = some q) ∧
      (∀ e ∈ sortedbycount t, e.1.interim_id < t1.m_id2id_map.length) := by
  obtain ⟨hR, hids, _⟩ := recorded_of_run hrec
  obtain ⟨id2id, hst, hlen, _, _⟩ := store_recorded_final hR []
  refine ⟨_, _, hst, by simp only [hlen, first_seen_length], ?_, ?_⟩
  · intro p hp
    rw [hids, List.mem_map] at hp
    obtain ⟨s, hs, hsp⟩ := hp
    have hlt : p < id2id.length := by
      have := rank_lt hs
      omega
    exact ⟨hlt, id2id[p], by simp only [map_string_id]; exact List.getElem?_eq_getElem hlt⟩
  · intro e he
    obtain ⟨hel, hev⟩ := sortedbycount_entry hR he
    have := rank_lt hel
    simp only [hev, hlen]
    omega

/-- Witness of C16: three calls with two distinct strings. -/
theorem lookup_in_bounds_witness :
    record_strings StringTable.fresh ["highway", "residential", "highway"] =
        Except.ok ([1, 2, 1], ⟨[("highway", ⟨1, 1⟩), ("residential", ⟨0, 2⟩)], [], 2⟩) ∧
      ∃ t1 out, store_stringtable
          ⟨[("highway", ⟨1, 1⟩), ("residential", ⟨0, 2⟩)], [], 2⟩ [] = some (t1, out) ∧
        t1.m_id2id_map.length = ["highway", "residential", "highway"].toFinset.card + 1 ∧
        (∀ p ∈ [1, 2, 1], p < t1.m_id2id_map.length ∧ ∃ q, map_string_id t1 p = some q) ∧
        (∀ e ∈ sortedbycount ⟨[("highway", ⟨1, 1⟩), ("residential", ⟨0, 2⟩)], [], 2⟩,
          e.1.interim_id < t1.m_id2id_map.length) :=
  ⟨rfl, lookup_in_bounds ["highway", "residential", "highway"] [1, 2, 1] _ rfl⟩

/-- C17: finalising an empty block.  On a new or just cleared table `store_stringtable`
into an empty output list gives the one-element list of the empty string and the remap
table with the single slot 0 holding 0; and every `store_stringtable` call appends the
empty string to the output first, in front of the recorded strings. -/
theorem store_empty_block (t0 t t1 : StringTable) (st out : List String)
    (hstore : store_stringtable t st = some (t1, out)) :
    store_stringtable StringTable.fresh [] = some (⟨[], [0], 0⟩, [""]) ∧
      store_stringtable (clear t0) [] = some (⟨[], [0], 0⟩, [""]) ∧
      out = st ++ "" :: (sortedbycount t).map Prod.snd ∧
      out[st.length]? = some "" ∧
      ((sortedbycount t).map Prod.snd).Perm (t.m_strings.map Prod.fst) := by
  obtain ⟨_, _, hout, _⟩ := store_stringtable_frame hstore
  refine ⟨rfl, rfl, hout, ?_, ?_⟩
  · rw [hout, List.getElem?_append_right (Nat.le_refl _), Nat.sub_self,
      List.getElem?_cons_zero]
  · have := (sortedbycount_perm t).map Prod.snd
    rw [List.map_map] at this
    exact this

/-- Witness of C17: a table with one recorded string, and an output list that already
holds an entry. -/
theorem store_empty_block_witness :
    store_stringtable ⟨[("x", ⟨0, 1⟩)], [], 1⟩ ["y"] =
        some (⟨[("x", ⟨0, 1⟩)], [0, 1], 1⟩, ["y", "", "x"]) ∧
      (store_stringtable StringTable.fresh [] = some (⟨[], [0], 0⟩, [""]) ∧
        store_stringtable (clear StringTable.fresh) [] = some (⟨[], [0], 0⟩, [""]) ∧
        ["y", "", "x"] = ["y"] ++ "" :: (sortedbycount ⟨[("x", ⟨0, 1⟩)], [], 1⟩).map Prod.snd ∧
        ["y", "", "x"][["y"].length]? = some "" ∧
        ((sortedbycount ⟨[("x", ⟨0, 1⟩)], [], 1⟩).map Prod.snd).Perm
          ((⟨[("x", ⟨0, 1⟩)], [], 1⟩ : StringTable).m_strings.map Prod.fst)) :=
  ⟨rfl, store_empty_block StringTable.fresh ⟨[("x", ⟨0, 1⟩)], [], 1⟩
    ⟨[("x", ⟨0, 1⟩)], [0, 1], 1⟩ ["y"] ["y", "", "x"] rfl⟩

/-- C18: recording leaves the remap table alone.  A successful `record_string` call, and
so any successful sequence of such calls, returns a state with the `m_id2id_map` it
started from, so that `map_string_id` gives for every id what it gave before the calls,
in particular right after `store_stringtable`. -/
theorem record_keeps_remap (t t1 : StringTable) (r : List String) (ids : List Nat)
    (hrec : record_strings t r = Except.ok (ids, t1)) :
    t1.m_id2id_map = t.m_id2id_map ∧
      (∀ p, map_string_id t1 p = map_string_id t p) ∧
      (∀ s id t2, record_string t s = Except.ok (id, t2) →
        t2.m_id2id_map = t.m_id2id_map ∧ ∀ p, map_string_id t2 p = map_string_id t p) := by
  have h := record_strings_frame r t t1 ids hrec
  refine ⟨h, ?_, ?_⟩
  · intro p
    simp only [map_string_id, h]
  · intro s id t2 hs
    have h2 := record_string_frame hs
    exact ⟨h2, fun p => by simp only [map_string_id, h2]⟩

/-- Witness of C18: two more calls after the string table of the worked example was
stored. -/
theorem record_keeps_remap_witness :
    record_strings ⟨[("highway", ⟨1, 1⟩), ("name", ⟨0, 3⟩), ("residential", ⟨2, 2⟩)],
        [0, 2, 1, 3], 3⟩ ["name", "oneway"] =
      Except.ok ([3, 4], ⟨[("highway", ⟨1, 1⟩), ("name", ⟨1, 3⟩), ("oneway", ⟨0, 4⟩),
        ("residential", ⟨2, 2⟩)], [0, 2, 1, 3], 4⟩) ∧
    ((⟨[("highway", ⟨1, 1⟩), ("name", ⟨1, 3⟩), ("oneway", ⟨0, 4⟩),
        ("residential", ⟨2, 2⟩)], [0, 2, 1, 3], 4⟩ : StringTable).m_id2id_map =
      (⟨[("highway", ⟨1, 1⟩), ("name", ⟨0, 3⟩), ("residential", ⟨2, 2⟩)],
        [0, 2, 1, 3], 3⟩ : StringTable).m_id2id_map ∧
    (∀ p, map_string_id ⟨[("highway", ⟨1, 1⟩), ("name", ⟨1, 3⟩), ("oneway", ⟨0, 4⟩),
        ("residential", ⟨2, 2⟩)], [0, 2, 1, 3], 4⟩ p =
      map_string_id ⟨[("highway", ⟨1, 1⟩), ("name", ⟨0, 3⟩), ("residential", ⟨2, 2⟩)],
        [0, 2, 1, 3], 3⟩ p) ∧
    (∀ s id t2, record_string ⟨[("highway", ⟨1, 1⟩), ("name", ⟨0, 3⟩),
        ("residential", ⟨2, 2⟩)], [0, 2, 1, 3], 3⟩ s = Except.ok (id, t2) →
      t2.m_id2id_map = (⟨[("highway", ⟨1, 1⟩), ("name", ⟨0, 3⟩), ("residential", ⟨2, 2⟩)],
        [0, 2, 1, 3], 3⟩ : StringTable).m_id2id_map ∧
      ∀ p, map_string_id t2 p =
        map_string_id ⟨[("highway", ⟨1, 1⟩), ("name", ⟨0, 3⟩), ("residential", ⟨2, 2⟩)],
          [0, 2, 1, 3], 3⟩ p)) :=
  ⟨rfl, record_keeps_remap _ _ ["name", "oneway"] [3, 4] rfl⟩

theorem many_strings_nodup (n : Nat) : (many_strings n).Nodup := by
  apply List.Nodup.map _ (List.nodup_range n)
  intro i j hij
  have := congrArg (fun x => x.data.length) hij
  simpa using this

theorem many_strings_card (n : Nat) : (many_strings n).toFinset.card = n := by
  rw [List.toFinset_card_of_nodup (many_strings_nodup n)]
  simp [many_strings]

theorem b_not_mem_many_strings (n : Nat) : "b" ∉ many_strings n := by
  intro h
  simp only [many_strings, List.mem_map, List.mem_range] at h
  obtain ⟨i, _, hi⟩ := h
  have h1 : List.replicate i 'a' = ['b'] := by
    have := congrArg String.data hi
    simpa using this
  have h2 : 'b' ∈ List.replicate i 'a' := by rw [h1]; simp
  have h3 := List.eq_of_mem_replicate h2
  exact absurd h3 (by decide)

theorem record_strings_total (r : List String) : ∀ (t : StringTable) (l : List String),
    Recorded t l → (l ++ r).toFinset.card < STRING_ID_MAX →
    ∃ ids t1, record_strings t r = Except.ok (ids, t1) := by
  induction r with
  | nil => intro t l _ _; exact ⟨[], t, rfl⟩
  | cons s r ih =>
    intro t l h hcard
    have happ : l ++ [s] ++ r = l ++ s :: r := by simp
    have hstep : ∃ id t1, record_string t s = Except.ok (id, t1) := by
      by_cases hs : s ∈ l
      · exact ⟨_, _, record_string_seen t s _ (h.find s hs) (by simp)⟩
      · refine ⟨_, _, record_string_new t s (recorded_absent h hs) ?_⟩
        have h1 : (l ++ [s]).toFinset.card ≤ (l ++ s :: r).toFinset.card := by
          apply Finset.card_le_card
          intro x hx
          simp only [List.mem_toFinset, List.mem_append, List.mem_singleton,
            List.mem_cons] at hx ⊢
          tauto
        have h2 : (l ++ [s]).toFinset.card = l.toFinset.card + 1 := by
          rw [← first_seen_length, ← first_seen_length, first_seen_snoc,
            if_neg (fun hm => hs ((mem_first_seen l s).mp hm))]
          simp
        rw [h.size_eq, first_seen_length]
        omega
    obtain ⟨id, t1, h1⟩ := hstep
    obtain ⟨hR1, _, _⟩ := recorded_step h h1
    obtain ⟨ids, t2, h2⟩ := ih t1 (l ++ [s]) hR1 (by rw [happ]; exact hcard)
    exact ⟨id :: ids, t2, record_strings_cons h1 h2⟩

theorem reached_run (r : List String) : ∀ (t t1 : StringTable) (l : List String)
    (ids ids1 : List Nat), Reached t l ids → record_strings t r = Except.ok (ids1, t1) →
    Reached t1 (l ++ r) (ids ++ ids1) := by
  induction r with
  | nil =>
    intro t t1 l ids ids1 h hr
    simp only [record_strings] at hr
    injection hr with hr
    injection hr with h1 h2
    subst h1; subst h2
    simpa using h
  | cons s r ih =>
    intro t t1 l ids ids1 h hr
    simp only [record_strings] at hr
    cases h1 : record_string t s with
    | error e => rw [h1] at hr; cases hr
    | ok res =>
      obtain ⟨id, t2⟩ := res
      rw [h1] at hr
      simp only at hr
      cases h2 : record_strings t2 r with
      | error e => rw [h2] at hr; cases hr
      | ok res2 =>
        obtain ⟨ids2, t3⟩ := res2
        rw [h2] at hr
        simp only at hr
        injection hr with hr
        injection hr with h3 h4
        subst h3; subst h4
        have := ih t2 t3 (l ++ [s]) (ids ++ [id]) ids2 (Reached.record h h1) h2
        simpa using this

/-- A block can be filled with 65534 distinct strings: the calls all succeed and leave
`m_size = 65534`. -/
theorem many_strings_recorded :
    ∃ ids t, record_strings StringTable.fresh (many_strings 65534) = Except.ok (ids, t) ∧
      Reached t (many_strings 65534) ids ∧ t.m_size = 65534 ∧
      t.m_strings.length = 65534 := by
  obtain ⟨ids, t, h⟩ := record_strings_total (many_strings 65534) StringTable.fresh []
    recorded_fresh (by
      rw [List.nil_append, many_strings_card]
      decide)
  obtain ⟨hR, _, _⟩ := recorded_of_run h
  have hreach := reached_run (many_strings 65534) StringTable.fresh t [] [] ids
    Reached.fresh h
  simp only [List.nil_append] at hreach
  have hsize : t.m_size = 65534 := by
    rw [hR.size_eq, first_seen_length, many_strings_card]
  exact ⟨ids, t, h, hreach, hsize, by rw [recorded_length hR, hsize]⟩

/-- C11, counterexample: with 65534 distinct strings in the block, which is fewer than
65535, `record_string` of a new string already fails. -/
theorem capacity_error_with_65534 :
    (many_strings 65534).toFinset.card = 65534 ∧ "b" ∉ many_strings 65534 ∧
      ∃ ids t, record_strings StringTable.fresh (many_strings 65534) = Except.ok (ids, t) ∧
        t.m_size = 65534 ∧ t.m_strings.length = 65534 ∧
        ∃ e, record_string t "b" = Except.error e := by
  refine ⟨many_strings_card 65534, b_not_mem_many_strings 65534, ?_⟩
  obtain ⟨ids, t, h, hreach, hsize, hlen⟩ := many_strings_recorded
  obtain ⟨hR, _⟩ := reached_recorded hreach
  refine ⟨ids, t, h, hsize, hlen, _, record_string_full t "b"
    (recorded_absent hR (b_not_mem_many_strings 65534)) ?_⟩
  rw [hsize]
  decide

/-- C11, as amended: in a reachable state whose current block has the history `l`,
`record_string` fails exactly if the string is not in `l` and `l` has 65534 distinct
strings, the next `m_size` being 65535 and so not below the maximum id.  A block never
holds more than 65534 distinct strings, and it can hold that many; a string of the block
is always recorded again with success, and a new string is recorded with success while
the block has fewer than 65534 distinct strings. -/
theorem capacity_limit (t : StringTable) (l : List String) (ids : List Nat) (text : String)
    (hreach : Reached t l ids) :
    ((∃ e, record_string t text = Except.error e) ↔
        (text ∉ l ∧ l.toFinset.card = 65534)) ∧
      l.toFinset.card ≤ 65534 ∧
      (text ∈ l → ∃ id t1, record_string t text = Except.ok (id, t1)) ∧
      (text ∉ l → l.toFinset.card < 65534 →
        ∃ t1, record_string t text = Except.ok (l.toFinset.card + 1, t1)) ∧
      (∃ t0 l0 ids0, Reached t0 l0 ids0 ∧ l0.toFinset.card = 65534) := by
  obtain ⟨hR, _⟩ := reached_recorded hreach
  have hsize : t.m_size = l.toFinset.card := by rw [hR.size_eq, first_seen_length]
  have hlt := hR.size_lt
  simp only [STRING_ID_MAX] at hlt
  have hseen : text ∈ l → ∃ id t1, record_string t text = Except.ok (id, t1) :=
    fun hs => ⟨_, _, record_string_seen t text _ (hR.find text hs) (by simp)⟩
  refine ⟨?_, by omega, hseen, ?_, ?_⟩
  · constructor
    · rintro ⟨e, he⟩
      by_cases hs : text ∈ l
      · obtain ⟨id, t1, h1⟩ := hseen hs
        rw [h1] at he
        cases he
      · refine ⟨hs, ?_⟩
        by_cases hcap : t.m_size + 1 < STRING_ID_MAX
        · rw [record_string_new t text (recorded_absent hR hs) hcap] at he
          cases he
        · simp only [STRING_ID_MAX] at hcap
          omega
    · rintro ⟨hs, hcard⟩
      exact ⟨_, record_string_full t text (recorded_absent hR hs)
        (by simp only [STRING_ID_MAX]; omega)⟩
  · intro hs hcard
    have := record_string_new t text (recorded_absent hR hs)
      (by simp only [STRING_ID_MAX]; omega)
    rw [hsize] at this
    exact ⟨_, this⟩
  · obtain ⟨ids0, t0, _, hreach0, _, _⟩ := many_strings_recorded
    exact ⟨t0, _, ids0, hreach0, many_strings_card 65534⟩

/-- Witness of C11 as amended: a table that holds one string. -/
theorem capacity_limit_witness :
    Reached ⟨[("a", ⟨0, 1⟩)], [], 1⟩ ["a"] [1] ∧
      (((∃ e, record_string ⟨[("a", ⟨0, 1⟩)], [], 1⟩ "b" = Except.error e) ↔
          ("b" ∉ ["a"] ∧ ["a"].toFinset.card = 65534)) ∧
        ["a"].toFinset.card ≤ 65534 ∧
        ("b" ∈ ["a"] → ∃ id t1, record_string ⟨[("a", ⟨0, 1⟩)], [], 1⟩ "b" =
          Except.ok (id, t1)) ∧
        ("b" ∉ ["a"] → ["a"].toFinset.card < 65534 →
          ∃ t1, record_string ⟨[("a", ⟨0, 1⟩)], [], 1⟩ "b" =
            Except.ok (["a"].toFinset.card + 1, t1)) ∧
        (∃ t0 l0 ids0, Reached t0 l0 ids0 ∧ l0.toFinset.card = 65534)) :=
  ⟨Reached.record Reached.fresh rfl,
    capacity_limit ⟨[("a", ⟨0, 1⟩)], [], 1⟩ ["a"] [1] "b" (Reached.record Reached.fresh rfl)⟩

/-- C12, counterexample: on the block with 65534 distinct strings the failed
`record_string` call ends in a state that differs from the state before the call: the
string has an entry with count 0 and interim id 0, and `m_size` is 65535. -/
theorem capacity_error_changes_state :
    ∃ ids t e, record_strings StringTable.fresh (many_strings 65534) = Except.ok (ids, t) ∧
      record_string t "b" = Except.error e ∧ e ≠ t ∧
      t.m_size = 65534 ∧ e.m_size = 65535 ∧
      map_find t.m_strings "b" = none ∧ map_find e.m_strings "b" = some ⟨0, 0⟩ := by
  obtain ⟨ids, t, h, hreach, hsize, _⟩ := many_strings_recorded
  obtain ⟨hR, _⟩ := reached_recorded hreach
  have habs := recorded_absent hR (b_not_mem_many_strings 65534)
  refine ⟨ids, t, _, h, record_string_full t "b" habs (by rw [hsize]; decide), ?_,
    hsize, by simp only [hsize], habs, ?_⟩
  · intro heq
    have := congrArg StringTable.m_size heq
    simp at this
  · simp only [map_find_insert _ _ _ habs, if_true]

/-- C12, as amended: when `record_string` fails in a reachable state, the assertion was
checked after `m_strings[string]` created the entry and after `m_size` was incremented,
and before an interim id was assigned.  The state at the failure has the old remap table
and every old entry with its count and id; the string, which had no entry, has an entry
with count 0 and interim id 0, and `m_size` is one greater. -/
theorem capacity_error_state (t : StringTable) (l : List String) (ids : List Nat)
    (text : String) (e : StringTable)
    (hreach : Reached t l ids) (hfail : record_string t text = Except.error e) :
    e.m_id2id_map = t.m_id2id_map ∧ e.m_size = t.m_size + 1 ∧
      e.m_strings = map_insert t.m_strings text ⟨0, 0⟩ ∧
      map_find t.m_strings text = none ∧ map_find e.m_strings text = some ⟨0, 0⟩ ∧
      (∀ k, k ≠ text → map_find e.m_strings k = map_find t.m_strings k) := by
  obtain ⟨hR, _⟩ := reached_recorded hreach
  by_cases hs : text ∈ l
  · rw [record_string_seen t text _ (hR.find text hs) (by simp)] at hfail
    cases hfail
  · have habs := recorded_absent hR hs
    by_cases hcap : t.m_size + 1 < STRING_ID_MAX
    · rw [record_string_new t text habs hcap] at hfail
      cases hfail
    · rw [record_string_full t text habs hcap] at hfail
      injection hfail with hfail
      subst hfail
      refine ⟨rfl, rfl, rfl, habs, ?_, ?_⟩
      · simp only [map_find_insert _ _ _ habs, if_true]
      · intro k hk
        have hne : ¬ text = k := fun h => hk h.symm
        simp only [map_find_insert _ _ _ habs, if_neg hne]

/-- Witness of C12 as amended: the failed call on the block with 65534 distinct
strings. -/
theorem capacity_error_state_witness :
    ∃ ids t e, Reached t (many_strings 65534) ids ∧
      record_string t "b" = Except.error e ∧
      (e.m_id2id_map = t.m_id2id_map ∧ e.m_size = t.m_size + 1 ∧
        e.m_strings = map_insert t.m_strings "b" ⟨0, 0⟩ ∧
        map_find t.m_strings "b" = none ∧ map_find e.m_strings "b" = some ⟨0, 0⟩ ∧
        (∀ k, k ≠ "b" → map_find e.m_strings k = map_find t.m_strings k)) := by
  obtain ⟨ids, t, _, hreach, hsize, _⟩ := many_strings_recorded
  obtain ⟨hR, _⟩ := reached_recorded hreach
  have hfail := record_string_full t "b"
    (recorded_absent hR (b_not_mem_many_strings 65534)) (by rw [hsize]; decide)
  exact ⟨ids, t, _, hreach, hfail,
    capacity_error_state t (many_strings 65534) ids "b" _ hreach hfail⟩

theorem record_strings_append (l1 : List String) : ∀ (t t1 t2 : StringTable)
    (l2 : List String) (ids1 ids2 : List Nat),
    record_strings t l1 = Except.ok (ids1, t1) →
    record_strings t1 l2 = Except.ok (ids2, t2) →
    record_strings t (l1 ++ l2) = Except.ok (ids1 ++ ids2, t2) := by
  induction l1 with
  | nil =>
    intro t t1 t2 l2 ids1 ids2 h1 h2
    simp only [record_strings] at h1
    injection h1 with h1
    injection h1 with h3 h4
    subst h3; subst h4
    simpa using h2
  | cons s l1 ih =>
    intro t t1 t2 l2 ids1 ids2 h1 h2
    simp only [record_strings] at h1
    cases h3 : record_string t s with
    | error e => rw [h3] at h1; cases h1
    | ok res =>
      obtain ⟨id, t3⟩ := res
      rw [h3] at h1
      simp only at h1
      cases h4 : record_strings t3 l1 with
      | error e => rw [h4] at h1; cases h1
      | ok res2 =>
        obtain ⟨ids3, t4⟩ := res2
        rw [h4] at h1
        simp only at h1
        injection h1 with h1
        injection h1 with h5 h6
        subst h5; subst h6
        rw [List.cons_append, List.cons_append]
        exact record_strings_cons h3 (ih t3 t4 t2 l2 ids3 ids2 h4 h2)

theorem record_one_string_often (s : String) (n : Nat) :
    record_strings StringTable.fresh (List.replicate (n + 1) s) =
      Except.ok (List.replicate (n + 1) 1, ⟨[(s, ⟨n % UINT16_SIZE, 1⟩)], [], 1⟩) := by
  have h1 : record_string StringTable.fresh s = Except.ok (1, ⟨[(s, ⟨0, 1⟩)], [], 1⟩) := by
    rw [record_string_new StringTable.fresh s rfl (by decide)]
    simp [StringTable.fresh, map_insert, map_assign]
  have h2 := record_same_again s n 0 (by decide)
  rw [Nat.zero_add] at h2
  rw [List.replicate_succ, List.replicate_succ]
  exact record_strings_cons h1 h2

/-- C15: the most often used string on the code.  "a" is recorded 65537 times and "b"
twice; the stored count of "a" has wrapped to 0, the one of "b" is 1, and
`store_stringtable` writes "b" at index 1, in front of "a". -/
theorem most_used_string_not_first :
    record_strings StringTable.fresh (List.replicate 65537 "a" ++ ["b", "b"]) =
        Except.ok (List.replicate 65537 1 ++ [2, 2],
          ⟨[("a", ⟨0, 1⟩), ("b", ⟨1, 2⟩)], [], 2⟩) ∧
      store_stringtable ⟨[("a", ⟨0, 1⟩), ("b", ⟨1, 2⟩)], [], 2⟩ [] =
        some (⟨[("a", ⟨0, 1⟩), ("b", ⟨1, 2⟩)], [0, 2, 1], 2⟩, ["", "b", "a"]) ∧
      (List.replicate 65537 "a" ++ ["b", "b"]).count "a" = 65537 ∧
      (List.replicate 65537 "a" ++ ["b", "b"]).count "b" = 2 := by
  refine ⟨?_, rfl, ?_, ?_⟩
  · have h1 := record_one_string_often "a" 65536
    have h2 : record_strings ⟨[("a", ⟨0, 1⟩)], [], 1⟩ ["b", "b"] =
        Except.ok ([2, 2], ⟨[("a", ⟨0, 1⟩), ("b", ⟨1, 2⟩)], [], 2⟩) := rfl
    exact record_strings_append _ _ _ _ _ _ _ h1 h2
  · rw [List.count_append, List.count_replicate_self]
    rfl
  · rw [List.count_append, List.count_replicate]
    rfl

theorem vector_resize_self (v : List Nat) : vector_resize v v.length = v := by
  simp [vector_resize]

/-- On a recorded state a second `store_stringtable` call rebuilds the remap table of
the first call. -/
theorem store_twice {t t1 : StringTable} {l : List String} (h : Recorded t l)
    {st out : List String} (hstore : store_stringtable t st = some (t1, out))
    (st2 : List String) :
    store_stringtable t1 st2 =
      some (t1, st2 ++ "" :: (sortedbycount t).map Prod.snd) := by
  obtain ⟨id2id, hst, hlen, hmap⟩ := store_recorded h st
  rw [hst] at hstore
  simp only [Option.some.injEq, Prod.mk.injEq] at hstore
  obtain ⟨ht1, _⟩ := hstore
  subst ht1
  have hsc : sortedbycount ⟨t.m_strings, id2id, t.m_size⟩ = sortedbycount t := rfl
  have hnd : ((sortedbycount t).map (fun e => e.1.interim_id)).Nodup := by
    have hp := (sortedbycount_perm t).map (fun e => e.1.interim_id)
    rw [List.map_map] at hp
    exact hp.nodup_iff.mpr (recorded_ids_nodup h)
  have hlt : ∀ e ∈ sortedbycount t, e.1.interim_id < id2id.length := by
    intro e he
    obtain ⟨hel, hev⟩ := sortedbycount_entry h he
    have := rank_lt hel
    rw [hlen, hev, h.size_eq]
    simp only
    omega
  have hn : 0 + (sortedbycount t).length < UINT16_SIZE := by
    rw [sortedbycount_length h, ← h.size_eq]
    have := h.size_lt
    simp only [STRING_ID_MAX, UINT16_SIZE] at *
    omega
  obtain ⟨id2id2, h1, h2, h3, h4⟩ := store_loop_spec (sortedbycount t) (st2 ++ [""])
    id2id 0 hnd hlt hn
  have heq : id2id2 = id2id := by
    apply List.ext_getElem?
    intro j
    by_cases hj : j ∈ (sortedbycount t).map (fun e => e.1.interim_id)
    · obtain ⟨e, he, hej⟩ := List.mem_map.mp hj
      obtain ⟨i, hi⟩ := List.getElem?_of_mem he
      rw [← hej, h3 i e hi, hmap i e hi, Nat.zero_add]
    · exact h4 j hj
  subst heq
  have hres : vector_resize id2id2 (t.m_size + 1) = id2id2 := by
    rw [← hlen]
    exact vector_resize_self id2id2
  simp only [store_stringtable, hsc, hres, h1, List.append_assoc, List.singleton_append]

/-- C20: `store_stringtable` keeps the interning state.  Every successful call returns
a state with the `m_strings` and the `m_size` it started from; and when the state it
started from is reachable, a second call right after the first succeeds and returns the
state of the first call, remap table included. -/
theorem store_keeps_interning_state (t t1 : StringTable) (l : List String) (ids : List Nat)
    (st out st2 : List String) (hreach : Reached t l ids)
    (hstore : store_stringtable t st = some (t1, out)) :
    t1.m_strings = t.m_strings ∧ t1.m_size = t.m_size ∧
      (∃ t2 out2, store_stringtable t1 st2 = some (t2, out2) ∧
        t2.m_id2id_map = t1.m_id2id_map ∧ t2 = t1) ∧
      (∀ (u u1 : StringTable) (s o : List String), store_stringtable u s = some (u1, o) →
        u1.m_strings = u.m_strings ∧ u1.m_size = u.m_size) := by
  obtain ⟨h1, h2, _, _⟩ := store_stringtable_frame hstore
  obtain ⟨hR, _⟩ := reached_recorded hreach
  refine ⟨h1, h2, ⟨t1, _, store_twice hR hstore st2, rfl, rfl⟩, ?_⟩
  intro u u1 s o hs
  obtain ⟨h3, h4, _, _⟩ := store_stringtable_frame hs
  exact ⟨h3, h4⟩

/-- Witness of C20: the table of the worked example, stored twice. -/
theorem store_keeps_interning_state_witness :
    Reached ⟨[("highway", ⟨1, 1⟩), ("name", ⟨0, 3⟩), ("residential", ⟨2, 2⟩)], [], 3⟩
        ["highway", "residential", "highway", "name", "residential", "residential"]
        [1, 2, 1, 3, 2, 2] ∧
    store_stringtable
        ⟨[("highway", ⟨1, 1⟩), ("name", ⟨0, 3⟩), ("residential", ⟨2, 2⟩)], [], 3⟩ [] =
      some (⟨[("highway", ⟨1, 1⟩), ("name", ⟨0, 3⟩), ("residential", ⟨2, 2⟩)],
        [0, 2, 1, 3], 3⟩, ["", "residential", "highway", "name"]) ∧
    ((⟨[("highway", ⟨1, 1⟩), ("name", ⟨0, 3⟩), ("residential", ⟨2, 2⟩)],
        [0, 2, 1, 3], 3⟩ : StringTable).m_strings =
      (⟨[("highway", ⟨1, 1⟩), ("name", ⟨0, 3⟩), ("residential", ⟨2, 2⟩)], [], 3⟩ :
        StringTable).m_strings ∧
    (⟨[("highway", ⟨1, 1⟩), ("name", ⟨0, 3⟩), ("residential", ⟨2, 2⟩)],
        [0, 2, 1, 3], 3⟩ : StringTable).m_size =
      (⟨[("highway", ⟨1, 1⟩), ("name", ⟨0, 3⟩), ("residential", ⟨2, 2⟩)], [], 3⟩ :
        StringTable).m_size ∧
    (∃ t2 out2, store_stringtable
        ⟨[("highway", ⟨1, 1⟩), ("name", ⟨0, 3⟩), ("residential", ⟨2, 2⟩)],
          [0, 2, 1, 3], 3⟩ [] = some (t2, out2) ∧
      t2.m_id2id_map = (⟨[("highway", ⟨1, 1⟩), ("name", ⟨0, 3⟩), ("residential", ⟨2, 2⟩)],
        [0, 2, 1, 3], 3⟩ : StringTable).m_id2id_map ∧
      t2 = ⟨[("highway", ⟨1, 1⟩), ("name", ⟨0, 3⟩), ("residential", ⟨2, 2⟩)],
        [0, 2, 1, 3], 3⟩) ∧
    (∀ (u u1 : StringTable) (s o : List String), store_stringtable u s = some (u1, o) →
      u1.m_strings = u.m_strings ∧ u1.m_size = u.m_size)) :=
  ⟨reached_run _ _ _ [] [] _ Reached.fresh rfl, rfl,
    store_keeps_interning_state _ _
      ["highway", "residential", "highway", "name", "residential", "residential"]
      [1, 2, 1, 3, 2, 2] [] ["", "residential", "highway", "name"] []
      (reached_run _ _ _ [] [] _ Reached.fresh rfl) rfl⟩

theorem chars_less_irrefl (a : List Char) : chars_less a a = false := by
  induction a with
  | nil => rfl
  | cons x xs ih => simp [chars_less, ih]

theorem chars_less_trans : ∀ (a b c : List Char),
    chars_less a b = true → chars_less b c = true → chars_less a c = true := by
  intro a
  induction a with
  | nil =>
    intro b c hab hbc
    cases c with
    | nil => cases b <;> simp [chars_less] at hbc
    | cons z zs => rfl
  | cons x xs ih =>
    intro b c hab hbc
    cases b with
    | nil => simp [chars_less] at hab
    | cons y ys =>
      cases c with
      | nil => simp [chars_less] at hbc
      | cons z zs =>
        simp only [chars_less] at hab hbc ⊢
        by_cases h1 : x.toNat < y.toNat
        · by_cases h2 : y.toNat < z.toNat
          · have : x.toNat < z.toNat := by omega
            simp [this]
          · simp only [h2, if_false] at hbc
            by_cases h3 : z.toNat < y.toNat
            · simp [h3] at hbc
            · have : x.toNat < z.toNat := by omega
              simp [this]
        · simp only [h1, if_false] at hab
          by_cases h2 : y.toNat < x.toNat
          · simp [h2] at hab
          · simp only [h2, if_false] at hab
            have hxy : x.toNat = y.toNat := by omega
            by_cases h3 : y.toNat < z.toNat
            · have : x.toNat < z.toNat := by omega
              simp [this]
            · simp only [h3, if_false] at hbc
              by_cases h4 : z.toNat < y.toNat
              · simp [h4] at hbc
              · simp only [h4, if_false] at hbc
                have h5 : ¬ x.toNat < z.toNat := by omega
                have h6 : ¬ z.toNat < x.toNat := by omega
                simp only [h5, h6, if_false]
                exact ih ys zs hab hbc

theorem chars_less_total : ∀ (a b : List Char),
    chars_less a b = false → chars_less b a = false → a = b := by
  intro a
  induction a with
  | nil =>
    intro b hab _
    cases b with
    | nil => rfl
    | cons y ys => simp [chars_less] at hab
  | cons x xs ih =>
    intro b hab hba
    cases b with
    | nil => simp [chars_less] at hba
    | cons y ys =>
      simp only [chars_less] at hab hba
      by_cases h1 : x.toNat < y.toNat
      · simp [h1] at hab
      · by_cases h2 : y.toNat < x.toNat
        · simp [h2] at hba
        · simp only [h1, h2, if_false] at hab hba
          have hxy : x.toNat = y.toNat := by omega
          have hc : x = y := by
            rw [← Char.ofNat_toNat x, ← Char.ofNat_toNat y, hxy]
          rw [hc, ih ys hab hba]

theorem string_less_irrefl (a : String) : string_less a a = false :=
  chars_less_irrefl _

theorem string_less_trans {a b c : String} (hab : string_less a b = true)
    (hbc : string_less b c = true) : string_less a c = true :=
  chars_less_trans _ _ _ hab hbc

theorem string_less_total {a b : String} (hab : string_less a b = false)
    (hne : a ≠ b) : string_less b a = true := by
  by_contra hba
  rw [Bool.not_eq_true] at hba
  exact hne (String.ext (chars_less_total _ _ hab hba))

theorem map_insert_sorted (m : List (String × string_info)) (key : String)
    (v : string_info) (hm : KeysSorted m) (habs : map_find m key = none) :
    KeysSorted (map_insert m key v) := by
  induction m with
  | nil => simp [map_insert, KeysSorted]
  | cons e rest ih =>
    obtain ⟨k, v0⟩ := e
    have hk : k ≠ key := by
      intro h; simp [map_find, h] at habs
    have hrest : map_find rest key = none := by
      simpa [map_find, hk] using habs
    simp only [KeysSorted, List.map_cons, List.pairwise_cons] at hm
    obtain ⟨hhead, htail⟩ := hm
    by_cases h : string_less key k = true
    · simp only [map_insert, h, if_true, KeysSorted, List.map_cons, List.pairwise_cons]
      refine ⟨?_, hhead, htail⟩
      intro x hx
      rcases List.mem_cons.mp hx with hx | hx
      · rw [hx]; exact h
      · exact string_less_trans h (hhead x hx)
    · simp only [map_insert, h, Bool.false_eq_true, if_false, KeysSorted, List.map_cons,
        List.pairwise_cons]
      refine ⟨?_, ih htail hrest⟩
      intro x hx
      have hx1 := (map_insert_keys_perm rest key v).mem_iff.mp hx
      rcases List.mem_cons.mp hx1 with hx2 | hx2
      · rw [hx2]
        exact string_less_total (by simpa using h) (fun heq => hk heq.symm)
      · exact hhead x hx2

theorem map_assign_sorted (m : List (String × string_info)) (key : String)
    (v : string_info) (hm : KeysSorted m) : KeysSorted (map_assign m key v) := by
  simp only [KeysSorted, map_assign_keys]
  exact hm

theorem record_string_sorted {t t1 : StringTable} {s : String} {id : Nat}
    (h : record_string t s = Except.ok (id, t1)) (hm : KeysSorted t.m_strings) :
    KeysSorted t1.m_strings := by
  have hidx : KeysSorted (map_index t.m_strings s) := by
    unfold map_index
    cases hf : map_find t.m_strings s with
    | none => exact map_insert_sorted _ _ _ hm hf
    | some info => exact hm
  unfold record_string at h
  simp only at h
  split at h
  · split at h
    · injection h with h
      injection h with _ h
      rw [← h]
      exact map_assign_sorted _ _ _ hidx
    · cases h
  · injection h with h
    injection h with _ h
    rw [← h]
    exact map_assign_sorted _ _ _ hidx

theorem record_strings_sorted (r : List String) : ∀ (t t1 : StringTable) (ids : List Nat),
    record_strings t r = Except.ok (ids, t1) → KeysSorted t.m_strings →
    KeysSorted t1.m_strings := by
  induction r with
  | nil =>
    intro t t1 ids h hm
    simp only [record_strings] at h
    injection h with h
    injection h with _ h
    rw [← h]
    exact hm
  | cons s r ih =>
    intro t t1 ids h hm
    simp only [record_strings] at h
    cases h1 : record_string t s with
    | error e => rw [h1] at h; cases h
    | ok res =>
      obtain ⟨id, t2⟩ := res
      rw [h1] at h
      simp only at h
      cases h2 : record_strings t2 r with
      | error e => rw [h2] at h; cases h
      | ok res2 =>
        obtain ⟨ids2, t3⟩ := res2
        rw [h2] at h
        simp only at h
        injection h with h
        injection h with _ h
        subst h
        exact ih t2 t3 ids2 h2 (record_string_sorted h1 hm)

theorem info_less_forget (a b : string_info × String) :
    info_less (forget_id_flipped a).1 (forget_id_flipped b).1 = info_less a.1 b.1 := rfl

theorem upper_bound_pos_forget (m : Multimap) (v : string_info × String) :
    upper_bound_pos (m.map forget_id_flipped) (forget_id_flipped v).1 =
      upper_bound_pos m v.1 := by
  induction m with
  | nil => rfl
  | cons e es ih => simp only [List.map_cons, upper_bound_pos, info_less_forget, ih]

theorem lower_bound_pos_forget (m : Multimap) (v : string_info × String) :
    lower_bound_pos (m.map forget_id_flipped) (forget_id_flipped v).1 =
      lower_bound_pos m v.1 := by
  induction m with
  | nil => rfl
  | cons e es ih => simp only [List.map_cons, lower_bound_pos, info_less_forget, ih]

theorem insert_at_forget (m : Multimap) (i : Nat) (v : string_info × String) :
    insert_at (m.map forget_id_flipped) i (forget_id_flipped v) =
      ((insert_at m i v).1.map forget_id_flipped, (insert_at m i v).2) := by
  simp [insert_at]

/-- The hinted insertion looks at the counts only: it commutes with forgetting the
interim ids. -/
theorem multimap_insert_hint_forget (m : Multimap) (hint : Nat) (v : string_info × String) :
    multimap_insert_hint (m.map forget_id_flipped) hint (forget_id_flipped v) =
      ((multimap_insert_hint m hint v).1.map forget_id_flipped,
        (multimap_insert_hint m hint v).2) := by
  have hU := upper_bound_pos_forget m v
  have hL := lower_bound_pos_forget m v
  unfold multimap_insert_hint
  simp only [List.getElem?_map, List.getLast?_map, List.length_map, hU, hL]
  cases hpos : m[hint]? with
  | none =>
    simp only [Option.map_none']
    cases hlast : m.getLast? with
    | none => simp only [Option.map_none', insert_at_forget]
    | some last =>
      simp only [Option.map_some', info_less_forget]
      by_cases hc : info_less v.1 last.1 = true
      · simp only [hc, Bool.not_true, Bool.false_eq_true, if_false, insert_at_forget]
      · simp only [hc, Bool.not_false, if_true, insert_at_forget]
  | some pos =>
    simp only [Option.map_some', info_less_forget]
    by_cases hc : info_less pos.1 v.1 = true
    · simp only [hc, Bool.not_true, Bool.false_eq_true, if_false]
      cases hafter : m[hint + 1]? with
      | none => simp only [Option.map_none', insert_at_forget]
      | some after =>
        simp only [Option.map_some', info_less_forget]
        by_cases hc2 : info_less after.1 v.1 = true
        · simp only [hc2, Bool.not_true, Bool.false_eq_true, if_false, insert_at_forget]
        · simp only [hc2, Bool.not_false, if_true, insert_at_forget]
    · simp only [hc, Bool.not_false, if_true]
      cases hint with
      | zero => simp only [insert_at_forget]
      | succ b =>
        simp only [List.getElem?_map]
        cases hbefore : m[b]? with
        | none => simp only [Option.map_none', hU, insert_at_forget]
        | some before =>
          simp only [Option.map_some', info_less_forget, hU]
          by_cases hc2 : info_less v.1 before.1 = true
          · simp only [hc2, Bool.not_true, Bool.false_eq_true, if_false, insert_at_forget]
          · simp only [hc2, Bool.not_false, if_true, insert_at_forget]

theorem transform_insert_forget (src : List (String × string_info)) :
    ∀ (m : Multimap) (iter : Nat),
      transform_insert (src.map forget_id) (m.map forget_id_flipped) iter =
        (transform_insert src m iter).map forget_id_flipped := by
  induction src with
  | nil => intro m iter; rfl
  | cons p rest ih =>
    intro m iter
    simp only [List.map_cons, transform_insert]
    have h := multimap_insert_hint_forget m iter (p.2, p.1)
    have hp : ((forget_id p).2, (forget_id p).1) = forget_id_flipped (p.2, p.1) := rfl
    rw [hp, h]
    exact ih _ _

/-- The strings of `sortedbycount` in order depend on the keys and counts of `m_strings`
only. -/
theorem sortedbycount_strings (t : StringTable) :
    (sortedbycount t).map Prod.snd =
      (transform_insert (t.m_strings.map forget_id) [] 0).map Prod.snd := by
  have h := transform_insert_forget t.m_strings [] 0
  simp only [List.map_nil] at h
  rw [h, List.map_map]
  rfl

theorem map_find_forget {m : List (String × string_info)} (hnd : (m.map Prod.fst).Nodup) :
    m.map forget_id = (m.map Prod.fst).map
      (fun k => (k, ⟨((map_find m k).map string_info.count).getD 0, 0⟩)) := by
  rw [List.map_map]
  apply List.map_congr_left
  intro e he
  obtain ⟨k, v⟩ := e
  simp [forget_id, map_find_of_mem hnd he]

theorem keys_eq_of_sorted {m1 m2 : List (String × string_info)}
    (h1 : KeysSorted m1) (h2 : KeysSorted m2)
    (hmem : ∀ s, s ∈ m1.map Prod.fst ↔ s ∈ m2.map Prod.fst) :
    m1.map Prod.fst = m2.map Prod.fst := by
  haveI : IsAntisymm String (fun a b => string_less a b = true) :=
    ⟨fun a b hab hba => by
      have := string_less_trans hab hba
      rw [string_less_irrefl] at this
      cases this⟩
  have hirr : ∀ a : String, ¬ string_less a a = true := by
    intro a h
    rw [string_less_irrefl] at h
    cases h
  have himp : ∀ {a b : String}, string_less a b = true → a ≠ b := by
    intro a b hab heq
    subst heq
    exact hirr a hab
  have hn1 : (m1.map Prod.fst).Nodup := List.Pairwise.imp himp h1
  have hn2 : (m2.map Prod.fst).Nodup := List.Pairwise.imp himp h2
  exact List.eq_of_perm_of_sorted ((List.perm_ext_iff_of_nodup hn1 hn2).mpr hmem) h1 h2

/-- C19: the stored string table does not depend on the recording order.  When two
successful sequences of `record_string` calls on new tables leave the same strings with
the same stored counts, `store_stringtable` into an empty output list succeeds on both
and writes the same list of strings. -/
theorem output_independent_of_order (la lb : List String) (idsa idsb : List Nat)
    (ta tb : StringTable)
    (hra : record_strings StringTable.fresh la = Except.ok (idsa, ta))
    (hrb : record_strings StringTable.fresh lb = Except.ok (idsb, tb))
    (hsame : ∀ s, (map_find ta.m_strings s).map string_info.count =
      (map_find tb.m_strings s).map string_info.count) :
    ∃ ta1 tb1 out, store_stringtable ta [] = some (ta1, out) ∧
      store_stringtable tb [] = some (tb1, out) := by
  obtain ⟨hRa, _, _⟩ := recorded_of_run hra
  obtain ⟨hRb, _, _⟩ := recorded_of_run hrb
  obtain ⟨ida, hsta, _⟩ := store_recorded hRa []
  obtain ⟨idb, hstb, _⟩ := store_recorded hRb []
  have hsa : KeysSorted ta.m_strings :=
    record_strings_sorted la _ _ _ hra List.Pairwise.nil
  have hsb : KeysSorted tb.m_strings :=
    record_strings_sorted lb _ _ _ hrb List.Pairwise.nil
  have hmem : ∀ s, s ∈ ta.m_strings.map Prod.fst ↔ s ∈ tb.m_strings.map Prod.fst := by
    intro s
    have h1 := map_find_eq_none_iff ta.m_strings s
    have h2 := map_find_eq_none_iff tb.m_strings s
    have h3 : map_find ta.m_strings s = none ↔ map_find tb.m_strings s = none := by
      have := hsame s
      constructor
      · intro h; rw [h] at this; simpa using this.symm
      · intro h; rw [h] at this; simpa using this
    constructor
    · intro hin
      by_contra hout
      exact (h1.mp (h3.mpr (h2.mpr hout))) hin
    · intro hin
      by_contra hout
      exact (h2.mp (h3.mp (h1.mpr hout))) hin
  have hkeys := keys_eq_of_sorted hsa hsb hmem
  have hforget : ta.m_strings.map forget_id = tb.m_strings.map forget_id := by
    rw [map_find_forget (recorded_keys_nodup hRa), map_find_forget (recorded_keys_nodup hRb),
      hkeys]
    apply List.map_congr_left
    intro k _
    rw [hsame k]
  have hout : (sortedbycount ta).map Prod.snd = (sortedbycount tb).map Prod.snd := by
    rw [sortedbycount_strings ta, sortedbycount_strings tb, hforget]
  rw [hout] at hsta
  exact ⟨_, _, _, hsta, hstb⟩

/-- Witness of C19: "a" once and "b" twice, in two orders. -/
theorem output_independent_of_order_witness :
    record_strings StringTable.fresh ["a", "b", "b"] =
        Except.ok ([1, 2, 2], ⟨[("a", ⟨0, 1⟩), ("b", ⟨1, 2⟩)], [], 2⟩) ∧
      record_strings StringTable.fresh ["b", "a", "b"] =
        Except.ok ([1, 2, 1], ⟨[("a", ⟨0, 2⟩), ("b", ⟨1, 1⟩)], [], 2⟩) ∧
      (∀ s, (map_find (⟨[("a", ⟨0, 1⟩), ("b", ⟨1, 2⟩)], [], 2⟩ : StringTable).m_strings s).map
          string_info.count =
        (map_find (⟨[("a", ⟨0, 2⟩), ("b", ⟨1, 1⟩)], [], 2⟩ : StringTable).m_strings s).map
          string_info.count) ∧
      ∃ ta1 tb1 out,
        store_stringtable ⟨[("a", ⟨0, 1⟩), ("b", ⟨1, 2⟩)], [], 2⟩ [] = some (ta1, out) ∧
        store_stringtable ⟨[("a", ⟨0, 2⟩), ("b", ⟨1, 1⟩)], [], 2⟩ [] = some (tb1, out) :=
  ⟨rfl, rfl,
    fun s => by simp only [map_find]; split_ifs <;> rfl,
    output_independent_of_order ["a", "b", "b"] ["b", "a", "b"] [1, 2, 2] [1, 2, 1] _ _
      rfl rfl (fun s => by simp only [map_find]; split_ifs <;> rfl)⟩

theorem repInv_of_recorded {t : StringTable} {l : List String} (h : Recorded t l) :
    RepInv t := by
  refine ⟨(recorded_length h).symm, ?_, recorded_ids_nodup h⟩
  intro e he
  obtain ⟨k, v⟩ := e
  obtain ⟨_, hv⟩ := recorded_entry h he
  simp [hv]

theorem reached_keys_sorted {t : StringTable} {l : List String} {ids : List Nat}
    (h : Reached t l ids) : KeysSorted t.m_strings := by
  induction h with
  | fresh => exact List.Pairwise.nil
  | record _ hr ih => exact record_string_sorted hr ih
  | store _ hs ih =>
    obtain ⟨h1, _, _, _⟩ := store_stringtable_frame hs
    rw [h1]
    exact ih
  | clear _ _ => exact List.Pairwise.nil

/-- C21: the representation invariant.  In every state reached from construction by
successful `record_string` calls, `store_stringtable` and `clear`, `m_size` is the number
of entries of `m_strings`, every entry has a non-zero interim id, and different entries
have different interim ids; the new table and the results of the three operations on such
a state have these properties again.  There the test `interim_id == 0` that
`record_string` makes on `m_strings[string]` holds exactly if the string has no entry
yet, which is exactly if it was not recorded in the current block. -/
theorem representation_invariant (t : StringTable) (l : List String) (ids : List Nat)
    (hreach : Reached t l ids) :
    RepInv t ∧ RepInv StringTable.fresh ∧ RepInv (clear t) ∧
      (∀ s id t1, record_string t s = Except.ok (id, t1) → RepInv t1) ∧
      (∀ st t1 out, store_stringtable t st = some (t1, out) → RepInv t1) ∧
      (∀ e1 ∈ t.m_strings, ∀ e2 ∈ t.m_strings,
        e1.2.interim_id = e2.2.interim_id → e1 = e2) ∧
      KeysSorted t.m_strings ∧
      (∀ s, ((map_find (map_index t.m_strings s) s).getD ⟨0, 0⟩).interim_id = 0 ↔
        map_find t.m_strings s = none) ∧
      (∀ s, map_find t.m_strings s = none ↔ s ∉ l) := by
  obtain ⟨hR, _⟩ := reached_recorded hreach
  have hinv := repInv_of_recorded hR
  have hnone : ∀ s, map_find t.m_strings s = none ↔ s ∉ l := by
    intro s
    constructor
    · intro hf hs
      rw [hR.find s hs] at hf
      cases hf
    · exact fun hs => recorded_absent hR hs
  refine ⟨hinv, repInv_of_recorded recorded_fresh, repInv_of_recorded recorded_fresh,
    ?_, ?_, List.inj_on_of_nodup_map hinv.2.2, reached_keys_sorted hreach, ?_, hnone⟩
  · intro s id t1 hs
    exact repInv_of_recorded (reached_recorded (Reached.record hreach hs)).1
  · intro st t1 out hs
    exact repInv_of_recorded (reached_recorded (Reached.store hreach hs)).1
  · intro s
    by_cases hs : s ∈ l
    · have hf := hR.find s hs
      simp only [map_index, hf, Option.getD_some]
      simp
    · have hf := recorded_absent hR hs
      simp only [map_index, hf, map_find_insert _ _ _ hf, if_true, Option.getD_some]

/-- Witness of C21: the table after "b" and "a" were recorded. -/
theorem representation_invariant_witness :
    Reached ⟨[("a", ⟨0, 2⟩), ("b", ⟨0, 1⟩)], [], 2⟩ ["b", "a"] [1, 2] ∧
      (RepInv ⟨[("a", ⟨0, 2⟩), ("b", ⟨0, 1⟩)], [], 2⟩ ∧ RepInv StringTable.fresh ∧
        RepInv (clear ⟨[("a", ⟨0, 2⟩), ("b", ⟨0, 1⟩)], [], 2⟩) ∧
        (∀ s id t1, record_string ⟨[("a", ⟨0, 2⟩), ("b", ⟨0, 1⟩)], [], 2⟩ s =
          Except.ok (id, t1) → RepInv t1) ∧
        (∀ st t1 out, store_stringtable ⟨[("a", ⟨0, 2⟩), ("b", ⟨0, 1⟩)], [], 2⟩ st =
          some (t1, out) → RepInv t1) ∧
        (∀ e1 ∈ (⟨[("a", ⟨0, 2⟩), ("b", ⟨0, 1⟩)], [], 2⟩ : StringTable).m_strings,
          ∀ e2 ∈ (⟨[("a", ⟨0, 2⟩), ("b", ⟨0, 1⟩)], [], 2⟩ : StringTable).m_strings,
          e1.2.interim_id = e2.2.interim_id → e1 = e2) ∧
        KeysSorted (⟨[("a", ⟨0, 2⟩), ("b", ⟨0, 1⟩)], [], 2⟩ : StringTable).m_strings ∧
        (∀ s, ((map_find (map_index
            (⟨[("a", ⟨0, 2⟩), ("b", ⟨0, 1⟩)], [], 2⟩ : StringTable).m_strings s) s).getD
              ⟨0, 0⟩).interim_id = 0 ↔
          map_find (⟨[("a", ⟨0, 2⟩), ("b", ⟨0, 1⟩)], [], 2⟩ : StringTable).m_strings s =
            none) ∧
        (∀ s, map_find (⟨[("a", ⟨0, 2⟩), ("b", ⟨0, 1⟩)], [], 2⟩ : StringTable).m_strings s =
          none ↔ s ∉ ["b", "a"])) :=
  ⟨reached_run _ _ _ [] [] _ Reached.fresh rfl,
    representation_invariant ⟨[("a", ⟨0, 2⟩), ("b", ⟨0, 1⟩)], [], 2⟩ ["b", "a"] [1, 2]
      (reached_run _ _ _ [] [] _ Reached.fresh rfl)⟩

end Osmium
